import Mathlib

/-!
Verification development for the fox browser-assistant extension.

The definitions below are a shallow embedding of the orchestration core of
the extension:

* the command orchestrator of src/extension/background.js
  (handleCommand / executeCommand / the pending-confirmation table),
* the agentic tool-calling executor of src/extension/lib/llm-client.js
  (ToolExecutor: the bounded iteration loop, cancellation, the
  create_tab guardrails and normalizeUrlForDedup),
* the rate-limited model client of src/extension/lib/llm-client.js
  (MODEL_RING / nextModel),
* the URL block-list policy (UrlPolicy.matchesPattern / isBlockedUrl),
* the tab tools closeTabs and closeDuplicateTabs.

JavaScript objects whose fields may be absent are modelled by structures
with Option fields (or Bool fields defaulting to false, for fields that
are only ever absent or true).  Browser primitives (tab creation, tab
focus queries) are passed in as oracle functions.  Asynchronous promises
that are awaited are modelled by their eventual values; the cooperative
event-loop interleavings that the claims mention are modelled by explicit
intermediate states, documented where they occur.
-/

set_option maxHeartbeats 1600000

namespace Fox

/-- Summary of a browser tab as produced by summarizeTab in the tab tools
(src/unnamed/part_000-style tools file, summarizeTab). -/
structure TabSummary where
  id : Nat
  title : String := ""
  url : String := ""
  active : Bool := false
  pinned : Bool := false
  groupId : Int := -1
  windowId : Nat := 0
  index : Nat := 0
  audible : Bool := false
  discarded : Bool := false
deriving DecidableEq, Repr

/-- A tool-call result object.  JavaScript result objects carry only some of
these fields; an absent field is modelled as none (or false for flag fields
that are only ever set to true). -/
structure ToolResult where
  success : Option Bool := none
  error : Option String := none
  denied : Bool := false
  blocked : Bool := false
  url : Option String := none
  deduped : Bool := false
  skipped : Bool := false
  alreadyFocused : Bool := false
  tab : Option TabSummary := none
  tabId : Option Nat := none
  closedCount : Option Nat := none
  message : Option String := none
  count : Option Nat := none
deriving DecidableEq, Repr

/-- An entry of the executor's allToolCalls array:
one record per tool call, with its result attached. -/
structure ToolCallRecord where
  callId : Nat
  name : String
  args : String
  result : ToolResult
deriving DecidableEq, Repr

/-- The result shape returned by ToolExecutor.execute:
response / toolCalls / error? / cancelled?. -/
structure ExecResult where
  response : Option String := none
  toolCalls : List ToolCallRecord := []
  error : Option String := none
  cancelled : Bool := false
deriving DecidableEq, Repr

/-! ## Command orchestrator (src/extension/background.js)

State of the background script that the claims observe: the processing
flag, the FIFO commandQueue, and the current command.  Command ids are
generated from a counter (generateCommandId).  The lists submitted,
started and completed are ghost histories recording, in order, the
commands admitted by handleCommand, the commands that began executing
(executeCommand entered), and the commands whose promise was resolved
(executeCommand returned / next.resolve called). -/
structure OrchState where
  processing : Bool := false
  queue : List Nat := []
  current : Option Nat := none
  nextId : Nat := 0
  submitted : List Nat := []
  started : List Nat := []
  completed : List Nat := []
deriving DecidableEq, Repr

/-- The two orchestrator events the claims are about: a command submission
(handleCommand) and the completion of the current command (the finally
phase of executeCommand, which clears the flag and drains the queue). -/
inductive OrchEvent where
  | submit
  | finish
deriving DecidableEq, Repr

/-- One atomic orchestrator step.

submit: handleCommand generates a fresh command id; if state.processing it
pushes the command onto state.commandQueue (never dropping it), otherwise
it calls executeCommand, which sets state.processing = true and makes the
command current.

finish: the finally phase of executeCommand.  The current command's
promise resolves (appended to completed); state.processing is cleared; if
the queue is nonempty the head is shifted off and executeCommand is called
on it (so the flag is set again and that command starts). -/
def orchStep (s : OrchState) : OrchEvent → OrchState
  | .submit =>
    let id := s.nextId
    if s.processing then
      { s with queue := s.queue ++ [id], nextId := id + 1,
               submitted := s.submitted ++ [id] }
    else
      { s with processing := true, current := some id, nextId := id + 1,
               submitted := s.submitted ++ [id], started := s.started ++ [id] }
  | .finish =>
    match s.current with
    | none => s
    | some c =>
      match s.queue with
      | [] =>
        { s with processing := false, current := none,
                 completed := s.completed ++ [c] }
      | next :: rest =>
        { s with queue := rest, current := some next,
                 completed := s.completed ++ [c],
                 started := s.started ++ [next] }

/-- The orchestrator state reached from the initial state by a sequence of
events. -/
def orchRun (es : List OrchEvent) : OrchState :=
  es.foldl orchStep {}

/-- Iterating the finish event, modelling the queue being drained as
commands complete one after the other. -/
def drainN (s : OrchState) : Nat → OrchState
  | 0 => s
  | n + 1 => drainN (orchStep s .finish) n

/-- The inductive invariant of the orchestrator state. -/
structure OrchInv (s : OrchState) : Prop where
  fifo : s.started ++ s.queue = s.submitted
  split : s.completed ++ s.current.toList = s.started
  flag : s.processing = s.current.isSome
  idleQueue : s.processing = false → s.queue = []
  fresh : ∀ id ∈ s.submitted, id < s.nextId
  subNodup : s.submitted.Nodup

theorem orchInv_init : OrchInv {} := by
  refine ⟨rfl, rfl, rfl, fun _ => rfl, ?_, ?_⟩
  · intro id hid
    simp [OrchState.submitted] at hid
  · exact List.nodup_nil

theorem current_none_of_idle (s : OrchState) (h : OrchInv s)
    (hp : s.processing = false) : s.current = none := by
  have hflag := h.flag
  rw [hp] at hflag
  cases hcur : s.current with
  | none => rfl
  | some c => rw [hcur] at hflag; simp at hflag

theorem submitted_append_nodup (s : OrchState) (h : OrchInv s) :
    (s.submitted ++ [s.nextId]).Nodup := by
  rw [List.nodup_append]
  refine ⟨h.subNodup, List.nodup_singleton _, ?_⟩
  intro a ha hb
  rw [List.mem_singleton.mp hb] at ha
  exact absurd (h.fresh _ ha) (lt_irrefl _)

theorem orchInv_step (s : OrchState) (e : OrchEvent) (h : OrchInv s) :
    OrchInv (orchStep s e) := by
  cases e with
  | submit =>
    by_cases hp : s.processing = true
    · have hstep : orchStep s .submit =
          { s with queue := s.queue ++ [s.nextId], nextId := s.nextId + 1,
                   submitted := s.submitted ++ [s.nextId] } := by
        simp [orchStep, hp]
      rw [hstep]
      refine ⟨?_, h.split, h.flag, ?_, ?_, submitted_append_nodup s h⟩
      · show s.started ++ (s.queue ++ [s.nextId]) = s.submitted ++ [s.nextId]
        rw [← List.append_assoc, h.fifo]
      · intro hfalse
        rw [hp] at hfalse
        exact absurd hfalse (by simp)
      · intro id hid
        rcases List.mem_append.mp hid with hid | hid
        · exact Nat.lt_succ_of_lt (h.fresh id hid)
        · rw [List.mem_singleton.mp hid]; exact Nat.lt_succ_self _
    · have hp' : s.processing = false := by
        cases hb : s.processing
        · rfl
        · exact absurd hb hp
      have hcur : s.current = none := current_none_of_idle s h hp'
      have hq : s.queue = [] := h.idleQueue hp'
      have hstep : orchStep s .submit =
          { s with processing := true, current := some s.nextId,
                   nextId := s.nextId + 1,
                   submitted := s.submitted ++ [s.nextId],
                   started := s.started ++ [s.nextId] } := by
        simp [orchStep, hp']
      rw [hstep]
      refine ⟨?_, ?_, rfl, ?_, ?_, submitted_append_nodup s h⟩
      · show (s.started ++ [s.nextId]) ++ s.queue = s.submitted ++ [s.nextId]
        rw [hq]
        have := h.fifo
        rw [hq] at this
        simp at this ⊢
        exact this
      · show s.completed ++ (some s.nextId).toList = s.started ++ [s.nextId]
        have := h.split
        rw [hcur] at this
        simp at this
        simp [this]
      · intro hfalse
        exact absurd hfalse (by simp)
      · intro id hid
        rcases List.mem_append.mp hid with hid | hid
        · exact Nat.lt_succ_of_lt (h.fresh id hid)
        · rw [List.mem_singleton.mp hid]; exact Nat.lt_succ_self _
  | finish =>
    cases hcur : s.current with
    | none =>
      have hstep : orchStep s .finish = s := by simp [orchStep, hcur]
      rw [hstep]; exact h
    | some c =>
      have hflag : s.processing = true := by rw [h.flag, hcur]; rfl
      cases hq : s.queue with
      | nil =>
        have hstep : orchStep s .finish =
            { s with processing := false, current := none,
                     completed := s.completed ++ [c] } := by
          simp [orchStep, hcur, hq]
        rw [hstep]
        refine ⟨h.fifo, ?_, rfl, fun _ => hq, h.fresh, h.subNodup⟩
        show (s.completed ++ [c]) ++ (none : Option Nat).toList = s.started
        have := h.split
        rw [hcur] at this
        simpa using this
      | cons next rest =>
        have hstep : orchStep s .finish =
            { s with queue := rest, current := some next,
                     completed := s.completed ++ [c],
                     started := s.started ++ [next] } := by
          simp [orchStep, hcur, hq]
        rw [hstep]
        refine ⟨?_, ?_, ?_, ?_, h.fresh, h.subNodup⟩
        · show (s.started ++ [next]) ++ rest = s.submitted
          have := h.fifo
          rw [hq] at this
          simpa using this
        · show (s.completed ++ [c]) ++ (some next).toList = s.started ++ [next]
          have := h.split
          rw [hcur] at this
          simp at this
          simp [this]
        · exact hflag
        · intro hfalse
          have hpf : s.processing = false := hfalse
          rw [hflag] at hpf
          cases hpf

theorem orchInv_run (es : List OrchEvent) : OrchInv (orchRun es) := by
  suffices hgen : ∀ s, OrchInv s → OrchInv (es.foldl orchStep s) from
    hgen {} orchInv_init
  induction es with
  | nil => intro s hs; simpa using hs
  | cons e es ih =>
    intro s hs
    exact ih (orchStep s e) (orchInv_step s e hs)

theorem drain_aux (q : List Nat) (s : OrchState) (h : OrchInv s)
    (hq : s.queue = q) :
    (drainN s (q.length + 1)).completed = s.submitted ∧
    (drainN s (q.length + 1)).queue = [] ∧
    (drainN s (q.length + 1)).submitted = s.submitted := by
  induction q generalizing s with
  | nil =>
    cases hcur : s.current with
    | none =>
      have hstep : orchStep s .finish = s := by simp [orchStep, hcur]
      have hcomp : s.completed = s.started := by
        have := h.split; rw [hcur] at this; simpa using this
      have hsub : s.started = s.submitted := by
        have := h.fifo; rw [hq] at this; simpa using this
      simp [drainN, hstep, hcomp, hsub, hq]
    | some c =>
      have hstep : orchStep s .finish =
          { s with processing := false, current := none,
                   completed := s.completed ++ [c] } := by
        simp [orchStep, hcur, hq]
      have hcomp : s.completed ++ [c] = s.started := by
        have := h.split; rw [hcur] at this; simpa using this
      have hsub : s.started = s.submitted := by
        have := h.fifo; rw [hq] at this; simpa using this
      simp [drainN, hstep, hcomp, hsub, hq]
  | cons x xs ih =>
    cases hcur : s.current with
    | none =>
      exfalso
      have hp : s.processing = false := by rw [h.flag, hcur]; rfl
      have := h.idleQueue hp
      rw [hq] at this
      simp at this
    | some c =>
      have hstep : orchStep s .finish =
          { s with queue := xs, current := some x,
                   completed := s.completed ++ [c],
                   started := s.started ++ [x] } := by
        simp [orchStep, hcur, hq]
      have hinv : OrchInv (orchStep s .finish) := orchInv_step s .finish h
      have hq' : (orchStep s .finish).queue = xs := by rw [hstep]
      have := ih (orchStep s .finish) hinv hq'
      have hsub : (orchStep s .finish).submitted = s.submitted := by rw [hstep]
      rw [hsub] at this
      simpa [drainN] using this

/-! ## Pending confirmations (src/extension/background.js lines 212-291)

pendingConfirmations is a Map from confirmId to an entry holding the
commandId, the resolve callback and the timeout id.  Confirm ids come from
a counter (generateConfirmId).  The delivered list is a ghost log of every
outcome handed to a resolve callback, in order.  Every code path that
resolves an entry first clears its timeout and deletes it from the map, so
a timeout callback can only fire while its entry is still pending; the
timeout event below is therefore guarded on membership. -/
structure PendingConfirmation where
  confirmId : Nat
  commandId : Nat
deriving DecidableEq, Repr

structure ConfirmSys where
  pending : List PendingConfirmation := []
  nextConfirmId : Nat := 0
  delivered : List (Nat × Bool) := []
deriving DecidableEq, Repr

/-- resolvePendingConfirmation(confirmId, approved): if the id is pending,
clear its timeout, delete it and resolve with approved; otherwise no-op. -/
def resolvePendingConfirmation (s : ConfirmSys) (confirmId : Nat)
    (approved : Bool) : ConfirmSys :=
  if s.pending.any (fun p => p.confirmId == confirmId) then
    { s with pending := s.pending.filter (fun p => !(p.confirmId == confirmId)),
             delivered := s.delivered ++ [(confirmId, approved)] }
  else s

/-- resolveConfirmationsForCommand(commandId, approved): every pending
confirmation of that command is deleted and resolved with approved. -/
def resolveConfirmationsForCommand (s : ConfirmSys) (commandId : Nat)
    (approved : Bool) : ConfirmSys :=
  { s with
    pending := s.pending.filter (fun p => !(p.commandId == commandId)),
    delivered := s.delivered ++
      (s.pending.filter (fun p => p.commandId == commandId)).map
        (fun p => (p.confirmId, approved)) }

/-- Events on the pending-confirmation table. -/
inductive ConfirmEvent where
  | request (commandId : Nat)
  | respond (confirmId : Nat) (approved : Bool)
  | timeout (confirmId : Nat)
  | disconnect
  | cancelCommand (commandId : Nat)
deriving DecidableEq, Repr

/-- One step of the confirmation table.

request: requestToolConfirmation with the popup attached registers a fresh
confirmId for the command and arms its timeout.

respond: a confirm_response popup message calls resolvePendingConfirmation.

timeout: the 30s setTimeout callback deletes the entry and resolves false;
it can only fire while the entry is pending, because every other
resolution path clears the timeout.

disconnect: port.onDisconnect resolves every pending confirmation false.

cancelCommand: resolveConfirmationsForCommand(commandId, false), run on
cancel and in the finally phase of executeCommand. -/
def confirmStep (s : ConfirmSys) : ConfirmEvent → ConfirmSys
  | .request commandId =>
    { s with pending := s.pending ++ [⟨s.nextConfirmId, commandId⟩],
             nextConfirmId := s.nextConfirmId + 1 }
  | .respond confirmId approved => resolvePendingConfirmation s confirmId approved
  | .timeout confirmId =>
    if s.pending.any (fun p => p.confirmId == confirmId) then
      { s with pending := s.pending.filter (fun p => !(p.confirmId == confirmId)),
               delivered := s.delivered ++ [(confirmId, false)] }
    else s
  | .disconnect =>
    { s with pending := [],
             delivered := s.delivered ++ s.pending.map (fun p => (p.confirmId, false)) }
  | .cancelCommand commandId => resolveConfirmationsForCommand s commandId false

def confirmRun (es : List ConfirmEvent) : ConfirmSys :=
  es.foldl confirmStep {}

/-- The inductive invariant of the confirmation table: pending and
delivered ids are below the counter, are duplicate-free, and are disjoint
from each other. -/
structure ConfirmInv (s : ConfirmSys) : Prop where
  pendingFresh : ∀ p ∈ s.pending, p.confirmId < s.nextConfirmId
  deliveredFresh : ∀ d ∈ s.delivered, d.1 < s.nextConfirmId
  pendingNodup : (s.pending.map PendingConfirmation.confirmId).Nodup
  deliveredNodup : (s.delivered.map Prod.fst).Nodup
  disjoint : ∀ p ∈ s.pending, ∀ d ∈ s.delivered, p.confirmId ≠ d.1

theorem confirmInv_init : ConfirmInv {} := by
  refine ⟨?_, ?_, ?_, ?_, ?_⟩ <;> simp [ConfirmSys.pending, ConfirmSys.delivered]

theorem delivered_once_aux (s : ConfirmSys) (h : ConfirmInv s)
    (pend : List PendingConfirmation)
    (hsub : ∀ p ∈ pend, p ∈ s.pending)
    (hnd : (pend.map PendingConfirmation.confirmId).Nodup) :
    ((s.delivered ++ pend.map (fun p => (p.confirmId, false))).map Prod.fst).Nodup := by
  rw [List.map_append]
  rw [List.nodup_append]
  refine ⟨h.deliveredNodup, ?_, ?_⟩
  · simpa [Function.comp] using hnd
  · intro a ha hb
    rw [List.map_map] at hb
    simp only [List.mem_map, Function.comp] at ha hb
    obtain ⟨d, hd, hda⟩ := ha
    obtain ⟨p, hp, hpa⟩ := hb
    exact absurd (hpa.trans hda.symm) (h.disjoint p (hsub p hp) d hd)

theorem confirmInv_step (s : ConfirmSys) (e : ConfirmEvent) (h : ConfirmInv s) :
    ConfirmInv (confirmStep s e) := by
  cases e with
  | request commandId =>
    refine ⟨?_, ?_, ?_, h.deliveredNodup, ?_⟩
    · intro p hp
      rcases List.mem_append.mp hp with hp | hp
      · exact Nat.lt_succ_of_lt (h.pendingFresh p hp)
      · rw [List.mem_singleton.mp hp]; exact Nat.lt_succ_self _
    · intro d hd
      exact Nat.lt_succ_of_lt (h.deliveredFresh d hd)
    · show ((s.pending ++ [PendingConfirmation.mk s.nextConfirmId commandId]).map
        PendingConfirmation.confirmId).Nodup
      rw [List.map_append, List.nodup_append]
      refine ⟨h.pendingNodup, by simp, ?_⟩
      intro a ha hb
      simp only [List.map_cons, List.map_nil, List.mem_singleton] at hb
      simp only [List.mem_map] at ha
      obtain ⟨p, hp, hpa⟩ := ha
      exact absurd (hpa.trans hb) (Nat.ne_of_lt (h.pendingFresh p hp))
    · intro p hp d hd
      rcases List.mem_append.mp hp with hp | hp
      · exact h.disjoint p hp d hd
      · rw [List.mem_singleton.mp hp]
        exact Nat.ne_of_gt (h.deliveredFresh d hd)
  | respond confirmId approved =>
    show ConfirmInv (resolvePendingConfirmation s confirmId approved)
    unfold resolvePendingConfirmation
    by_cases hmem : s.pending.any (fun p => p.confirmId == confirmId)
    · rw [if_pos hmem]
      obtain ⟨p₀, hp₀, hid₀⟩ := List.any_eq_true.mp hmem
      have hid₀' : p₀.confirmId = confirmId := by simpa using hid₀
      refine ⟨?_, ?_, ?_, ?_, ?_⟩
      · intro p hp
        exact h.pendingFresh p (List.mem_of_mem_filter hp)
      · intro d hd
        rcases List.mem_append.mp hd with hd | hd
        · exact h.deliveredFresh d hd
        · rw [List.mem_singleton.mp hd, ← hid₀']
          exact h.pendingFresh p₀ hp₀
      · exact List.Nodup.sublist
          (List.Sublist.map _ (List.filter_sublist _)) h.pendingNodup
      · have := delivered_once_aux s h [p₀] (by simpa using hp₀) (by simp)
        simpa [hid₀'] using this
      · intro p hp d hd
        have hpmem := List.mem_of_mem_filter hp
        have hpne : ¬(p.confirmId == confirmId) = true := by
          have := List.of_mem_filter hp
          simpa using this
        rcases List.mem_append.mp hd with hd | hd
        · exact h.disjoint p hpmem d hd
        · rw [List.mem_singleton.mp hd]
          simpa using hpne
    · rw [if_neg hmem]; exact h
  | timeout confirmId =>
    show ConfirmInv _
    simp only [confirmStep]
    by_cases hmem : s.pending.any (fun p => p.confirmId == confirmId)
    · rw [if_pos hmem]
      obtain ⟨p₀, hp₀, hid₀⟩ := List.any_eq_true.mp hmem
      have hid₀' : p₀.confirmId = confirmId := by simpa using hid₀
      refine ⟨?_, ?_, ?_, ?_, ?_⟩
      · intro p hp
        exact h.pendingFresh p (List.mem_of_mem_filter hp)
      · intro d hd
        rcases List.mem_append.mp hd with hd | hd
        · exact h.deliveredFresh d hd
        · rw [List.mem_singleton.mp hd, ← hid₀']
          exact h.pendingFresh p₀ hp₀
      · exact List.Nodup.sublist
          (List.Sublist.map _ (List.filter_sublist _)) h.pendingNodup
      · have := delivered_once_aux s h [p₀] (by simpa using hp₀) (by simp)
        simpa [hid₀'] using this
      · intro p hp d hd
        have hpmem := List.mem_of_mem_filter hp
        have hpne : ¬(p.confirmId == confirmId) = true := by
          have := List.of_mem_filter hp
          simpa using this
        rcases List.mem_append.mp hd with hd | hd
        · exact h.disjoint p hpmem d hd
        · rw [List.mem_singleton.mp hd]
          simpa using hpne
    · rw [if_neg hmem]; exact h
  | disconnect =>
    show ConfirmInv { s with pending := [],
                             delivered := s.delivered ++
                               s.pending.map (fun p => (p.confirmId, false)) }
    refine ⟨?_, ?_, by simp, ?_, ?_⟩
    · intro p hp; simp at hp
    · intro d hd
      rcases List.mem_append.mp hd with hd | hd
      · exact h.deliveredFresh d hd
      · simp only [List.mem_map] at hd
        obtain ⟨p, hp, rfl⟩ := hd
        exact h.pendingFresh p hp
    · exact delivered_once_aux s h s.pending (fun p hp => hp) h.pendingNodup
    · intro p hp; simp at hp
  | cancelCommand commandId =>
    show ConfirmInv (resolveConfirmationsForCommand s commandId false)
    unfold resolveConfirmationsForCommand
    refine ⟨?_, ?_, ?_, ?_, ?_⟩
    · intro p hp
      exact h.pendingFresh p (List.mem_of_mem_filter hp)
    · intro d hd
      rcases List.mem_append.mp hd with hd | hd
      · exact h.deliveredFresh d hd
      · simp only [List.mem_map, List.mem_filter] at hd
        obtain ⟨p, ⟨hp, _⟩, rfl⟩ := hd
        exact h.pendingFresh p hp
    · exact List.Nodup.sublist
        (List.Sublist.map _ (List.filter_sublist _)) h.pendingNodup
    · exact delivered_once_aux s h _
        (fun p hp => List.mem_of_mem_filter hp)
        (List.Nodup.sublist (List.Sublist.map _ (List.filter_sublist _)) h.pendingNodup)
    · intro p hp d hd
      have hpmem := List.mem_of_mem_filter hp
      have hpne : ¬(p.commandId == commandId) = true := by
        have := List.of_mem_filter hp
        simpa using this
      rcases List.mem_append.mp hd with hd | hd
      · exact h.disjoint p hpmem d hd
      · simp only [List.mem_map, List.mem_filter] at hd
        obtain ⟨p', ⟨hp', hpc'⟩, rfl⟩ := hd
        intro hcontra
        have : p = p' := by
          have hinj := h.pendingNodup
          have := List.inj_on_of_nodup_map hinj hpmem hp' hcontra
          exact this
        rw [this] at hpne
        exact hpne hpc'

theorem confirmInv_run (es : List ConfirmEvent) : ConfirmInv (confirmRun es) := by
  suffices hgen : ∀ s, ConfirmInv s → ConfirmInv (es.foldl confirmStep s) from
    hgen {} confirmInv_init
  induction es with
  | nil => intro s hs; simpa using hs
  | cons e es ih =>
    intro s hs
    exact ih (confirmStep s e) (confirmInv_step s e hs)

/-! ## Agentic executor loop (src/extension/lib/llm-client.js, ToolExecutor)

The iteration loop of ToolExecutor.execute (MAX_ITERATIONS passes), with
the model's responses, the tool registry and the automatic follow-up
(autoInspectCreatedTabs) supplied as oracles.  The cancellation signal is
modelled by its firing time T on a checkpoint clock: every suspension
point of the loop checks the signal, and the loop passes three checkpoints
per iteration (3 * iter before the model round-trip and the confirmation
waits, 3 * iter + 1 while the tool calls of the pass execute, and
3 * iter + 2 during the automatic follow-up after the pass records have
been appended to allToolCalls).  Every abort path in the code returns
cancelledResult(), built from the allToolCalls accumulated so far. -/

def MAX_ITERATIONS : Nat := 10

/-- A model response: either tool_calls (a list of name/raw-argument
pairs) plus optional content, or a plain text response. -/
inductive ModelResp where
  | toolCalls (calls : List (String × String)) (content : Option String)
  | text (content : Option String)
deriving DecidableEq, Repr

/-- Whether a response takes the tool-call branch of the loop
(assistantMessage.tool_calls is present and nonempty). -/
def ModelResp.isToolPass : ModelResp → Bool
  | .toolCalls calls _ => !calls.isEmpty
  | .text _ => false

/-- cancelledResult (llm-client.js lines 982-991): the single result shape
for a cancelled command. -/
def cancelledResult (allToolCalls : List ToolCallRecord) : ExecResult :=
  { response := none, toolCalls := allToolCalls,
    error := some ("Command cancelled."), cancelled := true }

/-- The result returned after the loop exhausts MAX_ITERATIONS
(llm-client.js lines 1426-1432). -/
def maxIterationsResult (allToolCalls : List ToolCallRecord) : ExecResult :=
  { response := some ("Reached maximum tool call iterations. Here\x27s what was done so far."),
    toolCalls := allToolCalls, error := some ("Max iterations reached"),
    cancelled := false }

/-- The result for a plain text response (llm-client.js lines 1416-1423);
falsy content (absent or empty) becomes the placeholder. -/
def textResult (content : Option String) (allToolCalls : List ToolCallRecord) :
    ExecResult :=
  let responseText :=
    match content with
    | some c => if c = "" then ("(no response)") else c
    | none => "(no response)"
  { response := some responseText, toolCalls := allToolCalls,
    error := none, cancelled := false }

/-- The records of one pass: one entry per requested call, with sequential
call ids (nextCallId) and the result produced by the tool dispatch
(modelled by the oracle run : callId -> name -> rawArgs -> result). -/
def passRecords (run : Nat → String → String → ToolResult) (cid : Nat)
    (calls : List (String × String)) : List ToolCallRecord :=
  calls.enum.map (fun ic =>
    { callId := cid + ic.1, name := ic.2.1, args := ic.2.2,
      result := run (cid + ic.1) ic.2.1 ic.2.2 })

/-- Whether the cancellation signal (fired at time T, none = never) is
observed at checkpoint t.  Once fired it stays fired. -/
def fires : Option Nat → Nat → Bool
  | none, _ => false
  | some T, t => T ≤ t

/-- The bounded iteration loop of ToolExecutor.execute.

resp i is the model response of pass i (LLMClient.chatCompletion), run
dispatches one tool call, auto i is the list of extra records appended by
autoInspectCreatedTabs after pass i.  fuel is the number of remaining
passes (MAX_ITERATIONS at entry), iter the current pass index, cid the
nextCallId counter and acc the allToolCalls array accumulated so far
(at entry it holds the pre-run list_tabs record). -/
def execLoop (resp : Nat → ModelResp) (run : Nat → String → String → ToolResult)
    (auto : Nat → List ToolCallRecord) (T : Option Nat) :
    Nat → Nat → Nat → List ToolCallRecord → ExecResult
  | 0, _iter, _cid, acc => maxIterationsResult acc
  | fuel + 1, iter, cid, acc =>
    if fires T (3 * iter) then cancelledResult acc
    else
      match resp iter with
      | .text c => textResult c acc
      | .toolCalls calls c =>
        if calls.isEmpty then textResult c acc
        else
          let recs := passRecords run cid calls
          if fires T (3 * iter + 1) then cancelledResult acc
          else if fires T (3 * iter + 2) then cancelledResult (acc ++ recs)
          else execLoop resp run auto T fuel (iter + 1) (cid + calls.length)
                 (acc ++ recs ++ auto iter)

/-- Every cancelled exit of the loop carries the fixed cancelled shape and
preserves the records accumulated before entry. -/
theorem execLoop_cancelled_shape (resp : Nat → ModelResp)
    (run : Nat → String → String → ToolResult)
    (auto : Nat → List ToolCallRecord) (T : Option Nat) :
    ∀ fuel iter cid acc,
      (execLoop resp run auto T fuel iter cid acc).cancelled = true →
      (execLoop resp run auto T fuel iter cid acc).response = none ∧
      (execLoop resp run auto T fuel iter cid acc).error = some ("Command cancelled.") ∧
      acc <+: (execLoop resp run auto T fuel iter cid acc).toolCalls := by
  intro fuel
  induction fuel with
  | zero =>
    intro iter cid acc hcan
    simp [execLoop, maxIterationsResult] at hcan
  | succ fuel ih =>
    intro iter cid acc hcan
    rw [execLoop] at hcan ⊢
    by_cases h0 : fires T (3 * iter) = true
    · simp only [h0, if_true]
      exact ⟨rfl, rfl, List.prefix_refl acc⟩
    · rw [Bool.not_eq_true] at h0
      simp only [h0] at hcan ⊢
      simp only [if_false, Bool.false_eq_true] at hcan ⊢
      cases hresp : resp iter with
      | text c =>
        rw [hresp] at hcan
        simp [textResult] at hcan
      | toolCalls calls c =>
        rw [hresp] at hcan
        dsimp only at hcan ⊢
        by_cases hemp : calls.isEmpty = true
        · simp only [hemp, if_true] at hcan
          simp [textResult] at hcan
        · rw [Bool.not_eq_true] at hemp
          simp only [hemp, Bool.false_eq_true, if_false] at hcan ⊢
          by_cases h1 : fires T (3 * iter + 1) = true
          · simp only [h1, if_true]
            exact ⟨rfl, rfl, List.prefix_refl acc⟩
          · rw [Bool.not_eq_true] at h1
            simp only [h1, Bool.false_eq_true, if_false] at hcan ⊢
            by_cases h2 : fires T (3 * iter + 2) = true
            · simp only [h2, if_true]
              exact ⟨rfl, rfl, List.prefix_append acc _⟩
            · rw [Bool.not_eq_true] at h2
              simp only [h2, Bool.false_eq_true, if_false] at hcan ⊢
              obtain ⟨h₁, h₂, h₃⟩ := ih (iter + 1) (cid + calls.length) _ hcan
              refine ⟨h₁, h₂, ?_⟩
              calc acc <+: acc ++ (passRecords run cid calls ++ auto iter) :=
                    List.prefix_append acc _
                _ = acc ++ passRecords run cid calls ++ auto iter := by
                    rw [List.append_assoc]
                _ <+: (execLoop resp run auto T fuel (iter + 1)
                        (cid + calls.length)
                        (acc ++ passRecords run cid calls ++ auto iter)).toolCalls := h₃

/-- With no cancellation signal the loop never returns a cancelled
result. -/
theorem execLoop_no_signal_not_cancelled (resp : Nat → ModelResp)
    (run : Nat → String → String → ToolResult)
    (auto : Nat → List ToolCallRecord) :
    ∀ fuel iter cid acc,
      (execLoop resp run auto none fuel iter cid acc).cancelled = false := by
  intro fuel
  induction fuel with
  | zero => intro iter cid acc; simp [execLoop, maxIterationsResult]
  | succ fuel ih =>
    intro iter cid acc
    rw [execLoop]
    simp only [fires]
    cases hresp : resp iter with
    | text c => simp [textResult]
    | toolCalls calls c =>
      by_cases hemp : calls.isEmpty = true
      · simp [hemp, textResult]
      · rw [Bool.not_eq_true] at hemp
        simp only [hemp, Bool.false_eq_true, if_false]
        exact ih (iter + 1) (cid + calls.length) _

/-- A signal that has already fired when a pass begins makes the loop
return cancelledResult of exactly the records accumulated so far. -/
theorem execLoop_fired_at_top (resp : Nat → ModelResp)
    (run : Nat → String → String → ToolResult)
    (auto : Nat → List ToolCallRecord) (tau : Nat)
    (fuel iter cid : Nat) (acc : List ToolCallRecord)
    (hfuel : 0 < fuel) (htau : tau ≤ 3 * iter) :
    execLoop resp run auto (some tau) fuel iter cid acc = cancelledResult acc := by
  cases fuel with
  | zero => cases hfuel
  | succ fuel =>
    rw [execLoop]
    have : fires (some tau) (3 * iter) = true := by
      simp [fires, htau]
    rw [this]
    simp

/-- The max-iterations exit: if every remaining pass is a tool-call pass
and the signal never fires, the loop ends with the fixed max-iterations
error, keeps everything accumulated so far, and (having run at least one
pass) returns a nonempty record list. -/
theorem execLoop_maxIter (resp : Nat → ModelResp)
    (run : Nat → String → String → ToolResult)
    (auto : Nat → List ToolCallRecord) :
    ∀ fuel iter cid acc,
      (∀ i, iter ≤ i → i < iter + fuel → (resp i).isToolPass = true) →
      (execLoop resp run auto none fuel iter cid acc).error = some ("Max iterations reached") ∧
      (execLoop resp run auto none fuel iter cid acc).response =
        some ("Reached maximum tool call iterations. Here\x27s what was done so far.") ∧
      (execLoop resp run auto none fuel iter cid acc).cancelled = false ∧
      acc <+: (execLoop resp run auto none fuel iter cid acc).toolCalls ∧
      (0 < fuel → (execLoop resp run auto none fuel iter cid acc).toolCalls ≠ []) := by
  intro fuel
  induction fuel with
  | zero =>
    intro iter cid acc _
    refine ⟨rfl, rfl, rfl, List.prefix_refl acc, ?_⟩
    intro h; cases h
  | succ fuel ih =>
    intro iter cid acc hall
    have hpass : (resp iter).isToolPass = true :=
      hall iter (Nat.le_refl iter) (by omega)
    rw [execLoop]
    simp only [fires]
    cases hresp : resp iter with
    | text c => rw [hresp] at hpass; simp [ModelResp.isToolPass] at hpass
    | toolCalls calls c =>
      rw [hresp] at hpass
      simp only [ModelResp.isToolPass] at hpass
      have hemp : calls.isEmpty = false := by
        cases h : calls.isEmpty
        · rfl
        · rw [h] at hpass; simp at hpass
      simp only [hemp, Bool.false_eq_true, if_false]
      have hall' : ∀ i, iter + 1 ≤ i → i < iter + 1 + fuel →
          (resp i).isToolPass = true := by
        intro i h1 h2
        exact hall i (by omega) (by omega)
      obtain ⟨h₁, h₂, h₃, h₄, _⟩ := ih (iter + 1) (cid + calls.length)
        (acc ++ passRecords run cid calls ++ auto iter) hall'
      refine ⟨h₁, h₂, h₃, ?_, ?_⟩
      · calc acc <+: acc ++ (passRecords run cid calls ++ auto iter) :=
              List.prefix_append acc _
          _ = acc ++ passRecords run cid calls ++ auto iter := by
              rw [List.append_assoc]
          _ <+: _ := h₄
      · intro _
        have hne : acc ++ passRecords run cid calls ++ auto iter ≠ [] := by
          intro hcontra
          have hrecs : passRecords run cid calls = [] := by
            rcases List.append_eq_nil.mp hcontra with ⟨h', _⟩
            exact (List.append_eq_nil.mp h').2
          have : calls = [] := by
            have := congrArg List.length hrecs
            simp [passRecords] at this
            exact this
          rw [this] at hemp
          simp at hemp
        intro hcontra
        rw [hcontra] at h₄
        exact hne (List.prefix_nil.mp h₄)


/-! ## Character-level string primitives

normalizeUrlForDedup and UrlPolicy use the JavaScript string primitives
trim, toLowerCase, includes, startsWith, endsWith and split.  They are
modelled below by structurally recursive functions on the character list
of the string, so that every definition evaluates by kernel reduction. -/

def strLower (s : String) : String :=
  String.mk (s.toList.map Char.toLower)

def strTrim (s : String) : String :=
  String.mk
    (((s.toList.dropWhile Char.isWhitespace).reverse.dropWhile
      Char.isWhitespace).reverse)

/-- If needle is an initial segment of hay, the remainder of hay. -/
def dropPre : List Char → List Char → Option (List Char)
  | [], hay => some hay
  | _ :: _, [] => none
  | n :: ns, h :: hs => if n = h then dropPre ns hs else none

/-- Split hay around the first occurrence of needle:
the part before it and the part after it. -/
def splitFirst (needle : List Char) :
    List Char → Option (List Char × List Char)
  | [] =>
    match needle with
    | [] => some ([], [])
    | _ :: _ => none
  | c :: rest =>
    match dropPre needle (c :: rest) with
    | some post => some ([], post)
    | none =>
      match splitFirst needle rest with
      | some (pre, post) => some (c :: pre, post)
      | none => none

/-- String.prototype.includes for a nonempty needle. -/
def containsSub (s sub : String) : Bool :=
  (splitFirst sub.toList s.toList).isSome

/-- String.prototype.endsWith. -/
def endsWithStr (s suf : String) : Bool :=
  (dropPre suf.toList.reverse s.toList.reverse).isSome

def charContains (s : String) (c : Char) : Bool :=
  s.toList.any (fun x => x = c)

/-! ## URL parsing

normalizeUrlForDedup (llm-client.js lines 917-945) and UrlPolicy
(matchesPattern and friends) both parse URLs with the platform URL
constructor.  parseUrl below models the WHATWG URL constructor on the
absolute scheme://host[/path][?query][#fragment] subset this extension
exercises, returning none where new URL(url) throws (no scheme
separator, empty or malformed scheme or host).  Fragments are dropped;
hosts keep their port (host) and hostnameOf strips it (hostname). -/

def isSchemeChar (c : Char) : Bool :=
  c.isAlphanum || c == '+' || c == '-' || c == '.'

def isHostChar (c : Char) : Bool :=
  c.isAlphanum || c == '.' || c == '-' || c == ':' || c == '_'

structure ParsedUrl where
  protocol : String
  host : String
  pathname : String
  search : String
deriving DecidableEq, Repr

def parseUrl (s : String) : Option ParsedUrl :=
  match splitFirst (":".toList ++ "/".toList ++ "/".toList) s.toList with
  | none => none
  | some (schemeChars, cs) =>
    if schemeChars.isEmpty then none
    else if !(schemeChars.all isSchemeChar) then none
    else if !(schemeChars.headD 'a').isAlpha then none
    else
      let hostChars := cs.takeWhile
        (fun c => !(c == '/') && !(c == '?') && !(c == '#'))
      if hostChars.isEmpty then none
      else if !(hostChars.all isHostChar) then none
      else
        let rest₁ := cs.drop hostChars.length
        let pathChars := rest₁.takeWhile (fun c => !(c == '?') && !(c == '#'))
        let afterPath := rest₁.drop pathChars.length
        let searchChars := afterPath.takeWhile (fun c => !(c == '#'))
        let pathname := if pathChars.isEmpty then ("/") else String.mk pathChars
        let searchRaw := String.mk searchChars
        let search := if searchRaw = "?" then ("") else searchRaw
        some { protocol := strLower (String.mk schemeChars) ++ ":",
               host := strLower (String.mk hostChars),
               pathname := pathname, search := search }

def hostnameOf (p : ParsedUrl) : String :=
  String.mk (p.host.toList.takeWhile (fun c => !(c == ':')))

def hrefOf (p : ParsedUrl) : String :=
  p.protocol ++ "//" ++ p.host ++ p.pathname ++ p.search

def stripTrailingSlashes (s : String) : String :=
  String.mk ((s.toList.reverse.dropWhile (fun c => c == '/')).reverse)

/-- stripWww (llm-client.js line 924): drop one leading www. from the
host, case-insensitively. -/
def stripWww (host : String) : String :=
  match dropPre ("www.".toList) ((strLower host).toList) with
  | some _ => String.mk (host.toList.drop 4)
  | none => host

/-- normalizeParsed (llm-client.js lines 926-931): protocol, host without
a leading www., path without trailing slashes (empty for the bare root),
query preserved. -/
def normalizeParsed (p : ParsedUrl) : String :=
  let protocol := if p.protocol = "" then ("https:") else p.protocol
  let host := strLower (stripWww p.host)
  let path := if p.pathname = "/" then ("") else stripTrailingSlashes p.pathname
  protocol ++ "//" ++ host ++ path ++ p.search

/-- normalizeUrlForDedup (llm-client.js lines 919-945). -/
def normalizeUrlForDedup (url : String) : Option String :=
  let trimmed := strTrim url
  if trimmed = "" then none
  else
    match parseUrl trimmed with
    | some p => some (normalizeParsed p)
    | none =>
      match parseUrl ("https://" ++ trimmed) with
      | some p => some (normalizeParsed p)
      | none => some (stripTrailingSlashes (strLower trimmed))

/-- normalizeUrlForDedup applied to a possibly absent url argument (the
null / non-string guard of the JS function). -/
def normalizeUrlOpt (url : Option String) : Option String :=
  match url with
  | none => none
  | some u => normalizeUrlForDedup u

/-! ## URL block-list policy (UrlPolicy in src/unnamed/part_001)

globToRegex escapes every regex metacharacter of the pattern and turns
escaped \* into .*, anchored with ^ and $ and case-insensitive.  Its
semantics is therefore exact whole-string glob matching with * as the
only wildcard, on lowercased inputs; globMatchChars implements that
matching directly. -/

def globMatchFuel : Nat → List Char → List Char → Bool
  | 0, _, _ => false
  | _ + 1, [], t => t.isEmpty
  | fuel + 1, p :: ps, t =>
    if p = '*' then
      match t with
      | [] => globMatchFuel fuel ps []
      | _ :: cs => globMatchFuel fuel ps t || globMatchFuel fuel (p :: ps) cs
    else
      match t with
      | [] => false
      | c :: cs => p == c && globMatchFuel fuel ps cs

/-- Anchored glob match, as globToRegex(pattern).test(text) on inputs the
callers have already lowercased.  Each recursive step of the matcher
shortens the pattern or the text, so pattern length plus text length plus
one is always enough fuel; the fuel only keeps the recursion structural. -/
def globTest (pattern text : String) : Bool :=
  globMatchFuel (pattern.toList.length + text.toList.length + 1)
    pattern.toList text.toList

def dropTrailingDots (s : String) : String :=
  String.mk ((s.toList.reverse.dropWhile (fun c => c == '.')).reverse)

/-- normalizeDomainPattern (part_001 lines 335-341). -/
def normalizeDomainPattern (pattern : String) : String :=
  strLower (dropTrailingDots
    (String.mk ((strTrim pattern).toList.dropWhile (fun c => c == '.'))))

/-- isDomainPattern (part_001 lines 343-345). -/
def isDomainPattern (pattern : String) : Bool :=
  !(containsSub pattern ("://")) && !(charContains pattern '/')

/-- matchesDomain (part_001 lines 347-359). -/
def matchesDomain (hostname pattern : String) : Bool :=
  let host := strLower hostname
  if host = "" then false
  else
    let normalized := normalizeDomainPattern pattern
    if normalized = "" then false
    else if charContains normalized '*' then globTest normalized host
    else host == normalized || endsWithStr host ("." ++ normalized)

/-- parseAsUrl (part_001 lines 361-377). -/
def parseAsUrl (url : String) : Option ParsedUrl :=
  let candidate := strTrim url
  if candidate = "" then none
  else
    match parseUrl candidate with
    | some p => some p
    | none => parseUrl ("https://" ++ candidate)

/-- matchesPattern (part_001 lines 379-403). -/
def matchesPattern (url pattern : String) : Bool :=
  match parseAsUrl url with
  | none =>
    let raw := strLower (strTrim url)
    if raw = "" then false
    else globTest (strLower pattern) raw
  | some parsed =>
    if isDomainPattern pattern then matchesDomain (hostnameOf parsed) pattern
    else
      let fullUrl := strLower (hrefOf parsed)
      let hostPath := strLower (hostnameOf parsed ++ parsed.pathname ++ parsed.search)
      let source := strLower pattern
      if globTest source fullUrl then true
      else if !(containsSub source ("://")) && globTest source hostPath then true
      else false

/-- isBlockedUrl (part_001 lines 405-417). -/
def isBlockedUrl (url : String) (patterns : List String) : Bool :=
  if url = "" || patterns.isEmpty then false
  else patterns.any (fun p => matchesPattern url p)

/-! ## create_tab guardrails and per-call dispatch (ToolExecutor.execute)

The dedup maps of one executor run.  JavaScript Maps are modelled as
association lists with mapSet overwriting any previous binding.  An
in-flight creation promise is modelled by its eventual result.  The
nested switch sub-result that the deduped results carry is not modelled
(no claim observes it); the effects component of each dispatch result
lists the underlying capability functions invoked, in order. -/

def mapSet {α β : Type} [BEq α] (l : List (α × β)) (k : α) (v : β) :
    List (α × β) :=
  (k, v) :: l.filter (fun p => !(p.1 == k))

structure DedupState where
  createdTabsByUrl : List (String × TabSummary) := []
  inFlightCreateByUrl : List (String × ToolResult) := []
  inFlightSwitchByTab : List (Nat × ToolResult) := []
deriving DecidableEq, Repr

def switchSkippedResult (tabId : Nat) : ToolResult :=
  { success := some true, skipped := true, alreadyFocused := true,
    tabId := some tabId,
    message := some ("switch_tab skipped: tab already active and focused.") }

/-- The result of the underlying createTab capability on success
(part_001 createTab: success plus the summarized tab). -/
def createTabSuccessResult (t : TabSummary) : ToolResult :=
  { success := some true, tab := some t }

/-- The final create arm of the create_tab guardrail (llm-client.js lines
1331-1353 and the generic arm 1357-1368): execute the capability, then
record the created tab under the normalized result URL (result.tab.url,
falling back to the requested url) provided the result has a tab and no
error. -/
def execCreateTabCreate (createExec : Option String → ToolResult)
    (st : DedupState) (url : Option String) :
    ToolResult × DedupState × List String :=
  let result := createExec url
  let keySrc :=
    match result.tab with
    | some t => if t.url = "" then url else some t.url
    | none => url
  let resultKey := normalizeUrlOpt keySrc
  let st' :=
    match resultKey with
    | some rk =>
      match result.tab with
      | some t =>
        if result.error = none then
          { st with createdTabsByUrl := mapSet st.createdTabsByUrl rk t }
        else st
      | none => st
    | none => st
  (result, st', ["create_tab"])

/-- The create_tab arm of the executor dispatch (llm-client.js lines
1269-1372).  A falsy dedup key falls through to the plain execute arm; an
existing tab with that key, or an in-flight creation whose result carries
a tab, yields a deduped result referencing that tab (focusing it via
switch_tab unless it is already focused); otherwise the tab is created
and recorded. -/
def execCreateTab (createExec : Option String → ToolResult)
    (alreadyFocused : Nat → Bool) (st : DedupState) (url : Option String) :
    ToolResult × DedupState × List String :=
  match normalizeUrlOpt url with
  | none => execCreateTabCreate createExec st url
  | some dedupKey =>
    match st.createdTabsByUrl.lookup dedupKey with
    | some existingTab =>
      let effects := if alreadyFocused existingTab.id then [] else ["switch_tab"]
      ({ success := some true, deduped := true, tab := some existingTab,
         message := some ("Duplicate create_tab suppressed; switched to existing tab.") },
       st, effects)
    | none =>
      match st.inFlightCreateByUrl.lookup dedupKey with
      | some firstCreateResult =>
        match firstCreateResult.tab with
        | some firstTab =>
          let effects := if alreadyFocused firstTab.id then [] else ["switch_tab"]
          ({ success := some true, deduped := true, tab := some firstTab,
             message := some ("Duplicate create_tab suppressed; reused in-flight tab.") },
           st, effects)
        | none => execCreateTabCreate createExec st url
      | none => execCreateTabCreate createExec st url

/-- The dedup state observed by a concurrently scheduled call while a
first create_tab call for key is suspended at await createPromise: the
code sets inFlightCreateByUrl before the await and deletes it after, so
during the suspension the map holds the promise, modelled by its eventual
result (llm-client.js lines 1331-1340). -/
def midCreateState (createExec : Option String → ToolResult)
    (st : DedupState) (url : Option String) (key : String) : DedupState :=
  { st with inFlightCreateByUrl :=
      mapSet st.inFlightCreateByUrl key (createExec url) }

structure ParsedCall where
  funcName : String
  url : Option String := none
  tabId : Option Nat := none
deriving DecidableEq, Repr

def DESTRUCTIVE_TOOLS : List String := ["close_tabs", "close_duplicate_tabs"]

def BLOCKED_SITE_ERROR : String := "Blocked by privacy settings for this site."

def deniedResult : ToolResult :=
  { error := some ("User denied this action."), denied := true }

def blockedResult (url : Option String) : ToolResult :=
  { error := some BLOCKED_SITE_ERROR, blocked := true, url := url }

def dedupedSwitchResult (tabId : Nat) : ToolResult :=
  { success := some true, deduped := true, tabId := some tabId,
    message := some ("Duplicate switch_tab suppressed; reused in-flight switch.") }

/-- One arm of the Promise.all map over a pass's parsed calls
(llm-client.js lines 1188-1372), for a single call: the
denied-confirmation guard, the blocked-site guard for create_tab, the
switch_tab guardrails, then the create_tab dedup guardrail, then the
plain ToolRegistry.execute.  approval is approvalsByCallId.get(callId)
(none when the tool is not destructive); genericExec models
ToolRegistry.execute for the remaining tools. -/
def dispatchParsedCall (blockedPatterns : List String) (approval : Option Bool)
    (createExec : Option String → ToolResult) (alreadyFocused : Nat → Bool)
    (genericExec : ParsedCall → ToolResult) (st : DedupState)
    (call : ParsedCall) : ToolResult × DedupState × List String :=
  if DESTRUCTIVE_TOOLS.contains call.funcName && (approval == some false) then
    (deniedResult, st, [])
  else if call.funcName == "create_tab" &&
      (match call.url with
       | some u => !(u == "") && isBlockedUrl u blockedPatterns
       | none => false) then
    (blockedResult call.url, st, [])
  else if call.funcName == "switch_tab" then
    match call.tabId with
    | some tid =>
      if alreadyFocused tid then (switchSkippedResult tid, st, [])
      else
        match st.inFlightSwitchByTab.lookup tid with
        | some _first => (dedupedSwitchResult tid, st, [])
        | none => (genericExec call, st, ["switch_tab"])
    | none => (genericExec call, st, [call.funcName])
  else if call.funcName == "create_tab" then
    execCreateTab createExec alreadyFocused st call.url
  else
    (genericExec call, st, [call.funcName])

/-! ## Model selection and rate limiting (llm-client.js lines 76-133)

modelCallLog is a per-model list of call timestamps, modelled as a
function from model name to timestamp list (empty for unseen models).
nextModel scans MODEL_RING in priority order, rewrites each visited
model's log to the timestamps still inside the trailing window, and
reserves the first model with budget by appending now before returning.
If no model has budget it picks the model whose oldest recorded call
expires soonest and records the overage call.  The Bool in the result
tells which branch was taken (true = all models saturated). -/

def MODEL_RING : List String :=
  ["gpt-5-nano", "gpt-4.1-mini", "gpt-4o-mini", "gpt-5-mini", "gpt-4.1",
   "gpt-4o", "gpt-5", "gpt-5.1", "gpt-5.1-chat-latest"]

def RPM_LIMIT : Nat := 3

def RPM_WINDOW_MS : Nat := 60000

abbrev RateLog := String → List Nat

/-- Keep only the calls within the window: now - t < RPM_WINDOW_MS.  For
t greater than now the JavaScript difference is negative and the call is
kept; truncated Nat subtraction gives 0 and keeps it as well. -/
def cleanLog (now : Nat) (log : List Nat) : List Nat :=
  log.filter (fun t => now - t < RPM_WINDOW_MS)

/-- The cleanup-and-scan loop of nextModel (lines 101-115). -/
def findAvail (now : Nat) : List String → RateLog → Option String × RateLog
  | [], log => (none, log)
  | m :: rest, log =>
    let recent := cleanLog now (log m)
    let log' := Function.update log m recent
    if recent.length < RPM_LIMIT then
      (some m, Function.update log' m (recent ++ [now]))
    else findAvail now rest log'

/-- The all-saturated fallback scan (lines 117-127): running best model /
best wait, starting from MODEL_RING[0] and an infinite best wait (none),
improving on strictly smaller waits. -/
def pickSoonestGo (now : Nat) (log : RateLog) :
    List String → String → Option Nat → String
  | [], bestModel, _ => bestModel
  | m :: rest, bestModel, bestWait =>
    let wait := RPM_WINDOW_MS - (now - ((log m).headD 0))
    match bestWait with
    | none => pickSoonestGo now log rest m (some wait)
    | some best =>
      if wait < best then pickSoonestGo now log rest m (some wait)
      else pickSoonestGo now log rest bestModel (some best)

def pickSoonest (now : Nat) (log : RateLog) : String :=
  pickSoonestGo now log MODEL_RING (MODEL_RING.headD ("")) none

/-- nextModel (llm-client.js lines 97-133). -/
def nextModel (now : Nat) (log : RateLog) : String × Bool × RateLog :=
  match findAvail now MODEL_RING log with
  | (some m, log') => (m, false, log')
  | (none, log') =>
    let m := pickSoonest now log'
    (m, true, Function.update log' m (log' m ++ [now]))

/-- Run nextModel over a sequence of request times, collecting for each
request the chosen model and whether the caller was assigned a saturated
model. -/
def nextModelRun : List Nat → RateLog → List (String × Bool) × RateLog
  | [], log => ([], log)
  | t :: ts, log =>
    let r := nextModel t log
    let rest := nextModelRun ts r.2.2
    ((r.1, r.2.1) :: rest.1, rest.2)

/-- The wait until a model's oldest recorded call expires. -/
def waitOf (now : Nat) (log : RateLog) (m : String) : Nat :=
  RPM_WINDOW_MS - (now - ((log m).headD 0))

/-! ## Tab tools (src/unnamed/part_001) -/

/-- A window as seen by closeTabs: its id and the ids of its tabs
(browser.windows.getAll with populate). -/
structure BrowserWindow where
  id : Nat
  tabIds : List Nat
deriving DecidableEq, Repr

/-- closeTabs (part_001 lines 67-85): refuse whenever some window's tabs
would all be closed (the for loop returns on the first such window),
otherwise remove the listed tabs everywhere.  The pair returned is the
result object and the window list afterwards. -/
def closeTabs (windows : List BrowserWindow) (tabIds : List Nat) :
    ToolResult × List BrowserWindow :=
  match windows.find? (fun w =>
      w.tabIds.all (fun id => tabIds.contains id) && !w.tabIds.isEmpty) with
  | some w =>
    let n := w.tabIds.length
    ({ success := some false,
       error := some ("Refusing to close all " ++ toString n ++
         " tabs in window " ++ toString w.id ++
         ". At least one tab must remain.") }, windows)
  | none =>
    ({ success := some true, closedCount := some tabIds.length },
     windows.map (fun w =>
       { w with tabIds := w.tabIds.filter (fun id => !(tabIds.contains id)) }))

/-- A tab as closeDuplicateTabs sees it. -/
structure DupTab where
  id : Nat
  url : String
deriving DecidableEq, Repr

/-- The duplicate scan of closeDuplicateTabs (part_001 lines 95-103): walk
the tabs, remembering seen URLs; a tab whose URL was already seen is a
dupe. -/
def dupeIds : List DupTab → List String → List Nat
  | [], _ => []
  | t :: ts, seen =>
    if t.url ∈ seen then t.id :: dupeIds ts seen
    else dupeIds ts (t.url :: seen)

/-- The URLs that survive the scan: the first occurrence of each URL, in
order. -/
def keepFirsts : List String → List String → List String
  | [], _ => []
  | u :: us, seen =>
    if u ∈ seen then keepFirsts us seen
    else u :: keepFirsts us (u :: seen)

/-- closeDuplicateTabs (part_001 lines 91-111) on the tabs of the queried
window: the result object and the tabs remaining after
browser.tabs.remove(dupes). -/
def closeDuplicateTabs (tabs : List DupTab) : ToolResult × List DupTab :=
  let dupes := dupeIds tabs []
  let remaining := tabs.filter (fun t => !(dupes.contains t.id))
  if dupes.isEmpty then
    ({ success := some true, closedCount := some 0,
       message := some ("No duplicate tabs found.") }, remaining)
  else
    ({ success := some true, closedCount := some dupes.length }, remaining)

theorem dupeIds_subset (ts : List DupTab) (seen : List String) :
    ∀ i ∈ dupeIds ts seen, i ∈ ts.map DupTab.id := by
  induction ts generalizing seen with
  | nil => intro i hi; simp [dupeIds] at hi
  | cons t ts ih =>
    intro i hi
    rw [dupeIds] at hi
    by_cases hseen : t.url ∈ seen
    · rw [if_pos hseen] at hi
      rcases List.mem_cons.mp hi with hi | hi
      · simp [hi]
      · simp only [List.map_cons, List.mem_cons]
        exact Or.inr (ih seen i hi)
    · rw [if_neg hseen] at hi
      simp only [List.map_cons, List.mem_cons]
      exact Or.inr (ih (t.url :: seen) i hi)

theorem dupeIds_keepFirsts_length (ts : List DupTab) (seen : List String) :
    (dupeIds ts seen).length + (keepFirsts (ts.map DupTab.url) seen).length =
      ts.length := by
  induction ts generalizing seen with
  | nil => simp [dupeIds, keepFirsts]
  | cons t ts ih =>
    rw [List.map_cons, dupeIds, keepFirsts]
    by_cases hseen : t.url ∈ seen
    · rw [if_pos hseen, if_pos hseen]
      have := ih seen
      simp only [List.length_cons]
      omega
    · rw [if_neg hseen, if_neg hseen]
      have := ih (t.url :: seen)
      simp only [List.length_cons]
      omega

theorem remaining_map_url (ts : List DupTab)
    (hnd : (ts.map DupTab.id).Nodup) (seen : List String) :
    (ts.filter (fun t => !((dupeIds ts seen).contains t.id))).map DupTab.url =
      keepFirsts (ts.map DupTab.url) seen := by
  induction ts generalizing seen with
  | nil => simp [dupeIds, keepFirsts]
  | cons t ts ih =>
    have hnd' : (ts.map DupTab.id).Nodup := (List.nodup_cons.mp hnd).2
    have hid : t.id ∉ ts.map DupTab.id := (List.nodup_cons.mp hnd).1
    rw [List.map_cons, dupeIds, keepFirsts]
    by_cases hseen : t.url ∈ seen
    · rw [if_pos hseen, if_pos hseen]
      rw [List.filter_cons]
      have hcontains : ((t.id :: dupeIds ts seen).contains t.id) = true := by
        simp [List.contains_cons]
      rw [hcontains]
      simp only [Bool.not_true, Bool.false_eq_true, if_false]
      have hagree : ∀ x ∈ ts,
          (!((t.id :: dupeIds ts seen).contains x.id)) =
            (!((dupeIds ts seen).contains x.id)) := by
        intro x hx
        have hne : x.id ≠ t.id := by
          intro hcontra
          exact hid (hcontra ▸ List.mem_map_of_mem DupTab.id hx)
        simp [List.contains_cons, hne]
      rw [List.filter_congr hagree]
      exact ih hnd' seen
    · rw [if_neg hseen, if_neg hseen]
      rw [List.filter_cons]
      have hnotdupe : ((dupeIds ts (t.url :: seen)).contains t.id) = false := by
        by_contra hcontra
        rw [Bool.not_eq_false] at hcontra
        have := dupeIds_subset ts (t.url :: seen) t.id
          (by simpa using hcontra)
        exact hid this
      rw [hnotdupe]
      simp only [Bool.not_false, if_true, List.map_cons]
      congr 1
      exact ih hnd' (t.url :: seen)

theorem remaining_find_first (ts : List DupTab)
    (hnd : (ts.map DupTab.id).Nodup) (seen : List String) (w : String)
    (hw : w ∉ seen) :
    (ts.filter (fun t => !((dupeIds ts seen).contains t.id))).find?
        (fun t => t.url == w) =
      ts.find? (fun t => t.url == w) := by
  induction ts generalizing seen with
  | nil => simp [dupeIds]
  | cons t ts ih =>
    have hnd' : (ts.map DupTab.id).Nodup := (List.nodup_cons.mp hnd).2
    have hid : t.id ∉ ts.map DupTab.id := (List.nodup_cons.mp hnd).1
    rw [dupeIds]
    by_cases hseen : t.url ∈ seen
    · rw [if_pos hseen]
      have hne : (t.url == w) = false := by
        have : t.url ≠ w := fun hcontra => hw (hcontra ▸ hseen)
        simp [this]
      rw [List.filter_cons]
      have hcontains : ((t.id :: dupeIds ts seen).contains t.id) = true := by
        simp [List.contains_cons]
      rw [hcontains]
      simp only [Bool.not_true, Bool.false_eq_true, if_false]
      have hagree : ∀ x ∈ ts,
          (!((t.id :: dupeIds ts seen).contains x.id)) =
            (!((dupeIds ts seen).contains x.id)) := by
        intro x hx
        have hnex : x.id ≠ t.id := by
          intro hcontra
          exact hid (hcontra ▸ List.mem_map_of_mem DupTab.id hx)
        simp [List.contains_cons, hnex]
      rw [List.filter_congr hagree]
      rw [List.find?_cons, hne]
      exact ih hnd' seen hw
    · rw [if_neg hseen]
      rw [List.filter_cons]
      have hnotdupe : ((dupeIds ts (t.url :: seen)).contains t.id) = false := by
        by_contra hcontra
        rw [Bool.not_eq_false] at hcontra
        have := dupeIds_subset ts (t.url :: seen) t.id (by simpa using hcontra)
        exact hid this
      rw [hnotdupe]
      simp only [Bool.not_false, if_true]
      rw [List.find?_cons, List.find?_cons]
      cases hmatch : (t.url == w) with
      | true => rfl
      | false =>
        have hwne : w ∉ t.url :: seen := by
          intro hcontra
          rcases List.mem_cons.mp hcontra with hcontra | hcontra
          · rw [hcontra] at hmatch; simp at hmatch
          · exact hw hcontra
        exact ih hnd' (t.url :: seen) hwne

theorem keepFirsts_length_toFinset (l : List String) (seen : List String) :
    (keepFirsts l seen).length = (l.toFinset \ seen.toFinset).card := by
  induction l generalizing seen with
  | nil => simp [keepFirsts]
  | cons u us ih =>
    rw [keepFirsts]
    by_cases hseen : u ∈ seen
    · rw [if_pos hseen]
      rw [ih seen, List.toFinset_cons,
        Finset.insert_sdiff_of_mem _ (List.mem_toFinset.mpr hseen)]
    · rw [if_neg hseen]
      simp only [List.length_cons]
      rw [ih (u :: seen)]
      rw [List.toFinset_cons, List.toFinset_cons]
      rw [Finset.insert_sdiff_of_not_mem _ (fun hcontra =>
        hseen (List.mem_toFinset.mp hcontra))]
      rw [Finset.sdiff_insert]
      by_cases hmem : u ∈ us.toFinset \ seen.toFinset
      · rw [Finset.insert_eq_self.mpr hmem]
        rw [Finset.card_erase_of_mem hmem]
        have hpos : 0 < (us.toFinset \ seen.toFinset).card :=
          Finset.card_pos.mpr ⟨u, hmem⟩
        omega
      · rw [Finset.card_insert_of_not_mem hmem]
        rw [Finset.erase_eq_of_not_mem hmem]

theorem cleanLog_noop (now : Nat) (log : List Nat)
    (h : ∀ t ∈ log, now - t < RPM_WINDOW_MS) : cleanLog now log = log := by
  rw [cleanLog, List.filter_eq_self]
  intro t ht
  simpa using h t ht

theorem cleanLog_idem (now : Nat) (log : List Nat) :
    cleanLog now (cleanLog now log) = cleanLog now log := by
  apply cleanLog_noop
  intro t ht
  have := List.of_mem_filter ht
  simpa using this

theorem findAvail_none_saturated (now : Nat) :
    ∀ (ring : List String) (log : RateLog),
      (findAvail now ring log).1 = none →
      ∀ m ∈ ring, RPM_LIMIT ≤ (cleanLog now (log m)).length := by
  intro ring
  induction ring with
  | nil => intro log _ m hm; simp at hm
  | cons m₀ rest ih =>
    intro log hnone m hm
    rw [findAvail] at hnone
    by_cases havail : (cleanLog now (log m₀)).length < RPM_LIMIT
    · rw [if_pos havail] at hnone
      simp at hnone
    · rw [if_neg havail] at hnone
      rcases List.mem_cons.mp hm with hm | hm
      · rw [hm]; omega
      · have := ih (Function.update log m₀ (cleanLog now (log m₀))) hnone m hm
        by_cases hme : m = m₀
        · rw [hme] at this ⊢
          rw [Function.update_same, cleanLog_idem] at this
          exact this
        · rw [Function.update_noteq hme] at this
          exact this

theorem findAvail_noop_clean (now : Nat) :
    ∀ (ring : List String) (log : RateLog),
      (∀ x ∈ ring, cleanLog now (log x) = log x) →
      (findAvail now ring log = (none, log)) ∨
      (∃ m, m ∈ ring ∧ (log m).length < RPM_LIMIT ∧
        findAvail now ring log =
          (some m, Function.update log m (log m ++ [now]))) := by
  intro ring
  induction ring with
  | nil => intro log _; left; rfl
  | cons m₀ rest ih =>
    intro log hclean
    have hc₀ : cleanLog now (log m₀) = log m₀ :=
      hclean m₀ (List.mem_cons_self m₀ rest)
    have hlog₁ : Function.update log m₀ (log m₀) = log :=
      Function.update_eq_self m₀ log
    rw [findAvail, hc₀, hlog₁]
    by_cases havail : (log m₀).length < RPM_LIMIT
    · right
      refine ⟨m₀, List.mem_cons_self m₀ rest, havail, ?_⟩
      rw [if_pos havail]
    · rw [if_neg havail]
      rcases ih log (fun x hx => hclean x (List.mem_cons_of_mem m₀ hx)) with
        h | ⟨m, hm, hlt, heq⟩
      · left; exact h
      · right; exact ⟨m, List.mem_cons_of_mem m₀ hm, hlt, heq⟩

theorem sum_lengths_update (now : Nat) (log : RateLog) (m : String) :
    ∀ (l : List String), l.Nodup → m ∈ l →
      (l.map (fun x => (Function.update log m (log m ++ [now]) x).length)).sum =
        (l.map (fun x => (log x).length)).sum + 1 := by
  intro l
  induction l with
  | nil => intro _ hm; simp at hm
  | cons x xs ih =>
    intro hnd hm
    have hnd' : xs.Nodup := (List.nodup_cons.mp hnd).2
    have hx : x ∉ xs := (List.nodup_cons.mp hnd).1
    rcases List.mem_cons.mp hm with hm | hm
    · rw [← hm]
      simp only [List.map_cons, List.sum_cons]
      rw [← hm] at hx
      rw [Function.update_same]
      have hmap : xs.map (fun y => (Function.update log m (log m ++ [now]) y).length) =
          xs.map (fun y => (log y).length) := by
        apply List.map_congr_left
        intro y hy
        have hne : y ≠ m := fun hcontra => hx (hcontra ▸ hy)
        rw [Function.update_noteq hne]
      rw [hmap]
      simp
      omega
    · have hne : x ≠ m := fun hcontra => hx (hcontra ▸ hm)
      simp only [List.map_cons, List.sum_cons]
      rw [Function.update_noteq hne]
      rw [ih hnd' hm]
      omega

theorem sum_lengths_lower (f : String → Nat) :
    ∀ (l : List String), (∀ x ∈ l, RPM_LIMIT ≤ f x) →
      RPM_LIMIT * l.length ≤ (l.map f).sum := by
  intro l
  induction l with
  | nil => intro _; simp
  | cons x xs ih =>
    intro h
    simp only [List.map_cons, List.sum_cons, List.length_cons]
    have h₁ := h x (List.mem_cons_self x xs)
    have h₂ := ih (fun y hy => h y (List.mem_cons_of_mem x hy))
    calc RPM_LIMIT * (xs.length + 1) = RPM_LIMIT * xs.length + RPM_LIMIT := by ring
      _ ≤ (xs.map f).sum + f x := Nat.add_le_add h₂ h₁
      _ = f x + (xs.map f).sum := Nat.add_comm _ _

theorem modelRing_nodup : MODEL_RING.Nodup := by decide

theorem modelRing_length : MODEL_RING.length = 9 := by decide

/-- The capacity lemma: starting from a log whose recorded timestamps all
lie in the window starting at lo, as long as recorded plus incoming calls
do not exceed RPM_LIMIT * MODEL_RING.length, every incoming call (at a
time inside that window) is served by the budget branch, never the
saturated branch. -/
theorem nextModelRun_not_saturated (lo : Nat) :
    ∀ (times : List Nat) (log : RateLog),
      (∀ t ∈ times, lo ≤ t ∧ t < lo + RPM_WINDOW_MS) →
      (∀ m ∈ MODEL_RING, ∀ ts ∈ log m, lo ≤ ts ∧ ts < lo + RPM_WINDOW_MS) →
      (MODEL_RING.map (fun m => (log m).length)).sum + times.length ≤
        RPM_LIMIT * MODEL_RING.length →
      ∀ fb ∈ (nextModelRun times log).1, fb.2 = false := by
  intro times
  induction times with
  | nil => intro log _ _ _ fb hfb; simp [nextModelRun] at hfb
  | cons t ts ih =>
    intro log htimes hlog hcount fb hfb
    have ht : lo ≤ t ∧ t < lo + RPM_WINDOW_MS :=
      htimes t (List.mem_cons_self t ts)
    have hclean : ∀ x ∈ MODEL_RING, cleanLog t (log x) = log x := by
      intro x hx
      apply cleanLog_noop
      intro u hu
      have := hlog x hx u hu
      omega
    rcases findAvail_noop_clean t MODEL_RING log hclean with
      hno | ⟨m, hmring, _hlt, heq⟩
    · exfalso
      have hsat : ∀ m ∈ MODEL_RING, RPM_LIMIT ≤ (cleanLog t (log m)).length := by
        apply findAvail_none_saturated
        rw [hno]
      have hsat' : ∀ m ∈ MODEL_RING, RPM_LIMIT ≤ (log m).length := by
        intro m hm
        have := hsat m hm
        rw [hclean m hm] at this
        exact this
      have hlower := sum_lengths_lower (fun m => (log m).length) MODEL_RING hsat'
      simp only [List.length_cons] at hcount
      omega
    · have hnext : nextModel t log =
          (m, false, Function.update log m (log m ++ [t])) := by
        rw [nextModel, heq]
      rw [nextModelRun, hnext] at hfb
      simp only [List.mem_cons] at hfb
      rcases hfb with hfb | hfb
      · rw [hfb]
      · apply ih (Function.update log m (log m ++ [t]))
          (fun u hu => htimes u (List.mem_cons_of_mem t hu)) ?_ ?_ fb hfb
        · intro x hx u hu
          by_cases hxm : x = m
          · rw [hxm, Function.update_same] at hu
            rcases List.mem_append.mp hu with hu | hu
            · exact hlog m hmring u hu
            · rw [List.mem_singleton.mp hu]; exact ht
          · rw [Function.update_noteq hxm] at hu
            exact hlog x hx u hu
        · rw [sum_lengths_update t log m MODEL_RING modelRing_nodup hmring]
          simp only [List.length_cons] at hcount
          omega

/-- Priority and reservation: a successful scan returns the first model in
ring order whose in-window call count is under budget, with the call
recorded (now appended) at selection time. -/
theorem findAvail_priority (now : Nat) :
    ∀ (ring : List String) (log : RateLog) (m : String) (log' : RateLog),
      ring.Nodup →
      findAvail now ring log = (some m, log') →
      ∃ pre post, ring = pre ++ m :: post ∧
        (∀ x ∈ pre, RPM_LIMIT ≤ (cleanLog now (log x)).length) ∧
        (cleanLog now (log m)).length < RPM_LIMIT ∧
        log' m = cleanLog now (log m) ++ [now] := by
  intro ring
  induction ring with
  | nil => intro log m log' _ h; simp [findAvail] at h
  | cons m₀ rest ih =>
    intro log m log' hnd h
    have hnd' : rest.Nodup := (List.nodup_cons.mp hnd).2
    have hm₀ : m₀ ∉ rest := (List.nodup_cons.mp hnd).1
    rw [findAvail] at h
    by_cases havail : (cleanLog now (log m₀)).length < RPM_LIMIT
    · rw [if_pos havail] at h
      have hmm : m = m₀ := by
        have := congrArg Prod.fst h
        simpa using this.symm
      have hlog' : log' = Function.update
          (Function.update log m₀ (cleanLog now (log m₀))) m₀
          (cleanLog now (log m₀) ++ [now]) := by
        have := congrArg Prod.snd h
        simpa using this.symm
      refine ⟨[], rest, by simp [hmm], by simp, by rw [hmm]; exact havail, ?_⟩
      rw [hmm, hlog', Function.update_idem, Function.update_same]
    · rw [if_neg havail] at h
      obtain ⟨pre, post, hring, hpre, hlt, hlast⟩ :=
        ih (Function.update log m₀ (cleanLog now (log m₀))) m log' hnd' h
      have hmrest : m ∈ rest := by rw [hring]; simp
      have hmne : m ≠ m₀ := fun hcontra => hm₀ (hcontra ▸ hmrest)
      refine ⟨m₀ :: pre, post, by rw [hring]; simp, ?_, ?_, ?_⟩
      · intro x hx
        rcases List.mem_cons.mp hx with hx | hx
        · rw [hx]; omega
        · have hxrest : x ∈ rest := by rw [hring]; simp [List.mem_append.mpr (Or.inl hx)]
          have := hpre x hx
          by_cases hxm : x = m₀
          · rw [hxm, Function.update_same, cleanLog_idem] at this
            rw [hxm]
            omega
          · rw [Function.update_noteq hxm] at this
            exact this
      · rw [Function.update_noteq hmne] at hlt
        exact hlt
      · rw [Function.update_noteq hmne] at hlast
        exact hlast

/-- The running-minimum scan of the saturated branch returns a model whose
wait is no larger than the running best and than every scanned model's
wait. -/
theorem pickSoonestGo_min (now : Nat) (log : RateLog) :
    ∀ (l : List String) (bm : String) (w : Nat),
      w = waitOf now log bm →
      waitOf now log (pickSoonestGo now log l bm (some w)) ≤ w ∧
      ∀ x ∈ l, waitOf now log (pickSoonestGo now log l bm (some w)) ≤
        waitOf now log x := by
  intro l
  induction l with
  | nil =>
    intro bm w hw
    refine ⟨?_, ?_⟩
    · rw [pickSoonestGo, hw]
    · intro x hx; simp at hx
  | cons m rest ih =>
    intro bm w hw
    rw [pickSoonestGo]
    by_cases hlt : RPM_WINDOW_MS - (now - ((log m).headD 0)) < w
    · simp only [if_pos hlt]
      obtain ⟨h₁, h₂⟩ := ih m (RPM_WINDOW_MS - (now - ((log m).headD 0))) rfl
      refine ⟨le_trans h₁ (le_of_lt hlt), ?_⟩
      intro x hx
      rcases List.mem_cons.mp hx with hx | hx
      · rw [hx]; exact h₁
      · exact h₂ x hx
    · simp only [if_neg hlt]
      obtain ⟨h₁, h₂⟩ := ih bm w hw
      refine ⟨h₁, ?_⟩
      intro x hx
      rcases List.mem_cons.mp hx with hx | hx
      · rw [hx]
        have hge : w ≤ waitOf now log m := by
          unfold waitOf
          omega
        exact le_trans h₁ hge
      · exact h₂ x hx

/-- pickSoonest returns a model whose oldest recorded call expires no
later than any ring model's. -/
theorem pickSoonest_min (now : Nat) (log : RateLog) :
    ∀ x ∈ MODEL_RING, waitOf now log (pickSoonest now log) ≤ waitOf now log x := by
  intro x hx
  have hring : MODEL_RING = "gpt-5-nano" ::
      ["gpt-4.1-mini", "gpt-4o-mini", "gpt-5-mini", "gpt-4.1",
       "gpt-4o", "gpt-5", "gpt-5.1", "gpt-5.1-chat-latest"] := rfl
  rw [pickSoonest, hring]
  rw [pickSoonestGo]
  obtain ⟨h₁, h₂⟩ := pickSoonestGo_min now log
    ["gpt-4.1-mini", "gpt-4o-mini", "gpt-5-mini", "gpt-4.1",
     "gpt-4o", "gpt-5", "gpt-5.1", "gpt-5.1-chat-latest"]
    "gpt-5-nano" (RPM_WINDOW_MS - (now - ((log ("gpt-5-nano")).headD 0))) rfl
  rw [hring] at hx
  rcases List.mem_cons.mp hx with hx | hx
  · rw [hx]
    exact h₁
  · exact h₂ x hx

theorem execLoop_toolCalls_accum (resp : Nat → ModelResp)
    (run : Nat → String → String → ToolResult)
    (auto : Nat → List ToolCallRecord) (T : Option Nat) :
    ∀ fuel iter cid acc,
      (execLoop resp run auto T fuel iter cid acc).toolCalls =
        acc ++ (execLoop resp run auto T fuel iter cid []).toolCalls := by
  intro fuel
  induction fuel with
  | zero => intro iter cid acc; simp [execLoop, maxIterationsResult]
  | succ fuel ih =>
    intro iter cid acc
    rw [execLoop, execLoop]
    by_cases h0 : fires T (3 * iter) = true
    · simp [h0, cancelledResult]
    · rw [Bool.not_eq_true] at h0
      simp only [h0, Bool.false_eq_true, if_false]
      cases resp iter with
      | text c => simp [textResult]
      | toolCalls calls c =>
        by_cases hemp : calls.isEmpty = true
        · simp [hemp, textResult]
        · rw [Bool.not_eq_true] at hemp
          simp only [hemp, Bool.false_eq_true, if_false]
          by_cases h1 : fires T (3 * iter + 1) = true
          · simp [h1, cancelledResult]
          · rw [Bool.not_eq_true] at h1
            simp only [h1, Bool.false_eq_true, if_false]
            by_cases h2 : fires T (3 * iter + 2) = true
            · simp [h2, cancelledResult]
            · rw [Bool.not_eq_true] at h2
              simp only [h2, Bool.false_eq_true, if_false]
              rw [ih (iter + 1) (cid + calls.length)
                (acc ++ passRecords run cid calls ++ auto iter)]
              rw [ih (iter + 1) (cid + calls.length)
                ([] ++ passRecords run cid calls ++ auto iter)]
              simp

/-! ## Claim theorems -/

/-- C1: commands submitted while another is running are queued FIFO,
never dropped, start and complete in strict submission order, and each
submitted command's promise resolves exactly once.  In every reachable
orchestrator state: started followed by the queue is exactly the
submission order; completed, then the current command, then the queue is
exactly the submission order (so completion order is a prefix of
submission order); no command id is completed twice; and after the
current command and the queued ones finish (the finally phase dequeues
and starts each next command), the completed history equals the full
submission history, with an empty queue. -/
theorem command_queue_fifo_never_drops (es : List OrchEvent) :
    (orchRun es).started ++ (orchRun es).queue = (orchRun es).submitted ∧
    (orchRun es).completed ++ (orchRun es).current.toList ++ (orchRun es).queue =
      (orchRun es).submitted ∧
    (orchRun es).completed.Nodup ∧
    ((drainN (orchRun es) ((orchRun es).queue.length + 1)).completed =
        (orchRun es).submitted ∧
      (drainN (orchRun es) ((orchRun es).queue.length + 1)).queue = []) := by
  have h := orchInv_run es
  have hchain : (orchRun es).completed ++ (orchRun es).current.toList ++
      (orchRun es).queue = (orchRun es).submitted := by
    rw [← h.fifo, ← h.split]
  refine ⟨h.fifo, hchain, ?_, (drain_aux _ _ h rfl).1, (drain_aux _ _ h rfl).2.1⟩
  have hsub : (orchRun es).completed.Sublist (orchRun es).submitted := by
    rw [← hchain, List.append_assoc]
    exact List.sublist_append_left _ _
  exact List.Nodup.sublist hsub h.subNodup

/-- C2: at most one command runs at any instant.  In every reachable
orchestrator state the number of commands started exceeds the number
completed by exactly the processing flag (0 or 1), an idle state has no
current command, and a submission while the flag is set starts nothing (it
only queues), while a submission with the flag clear starts exactly that
command. -/
theorem at_most_one_running_command (es : List OrchEvent) :
    (orchRun es).started.length =
      (orchRun es).completed.length +
        (if (orchRun es).processing then 1 else 0) ∧
    ((orchRun es).processing = false → (orchRun es).current = none) ∧
    (∀ s : OrchState, s.processing = true →
      (orchStep s .submit).started = s.started) ∧
    (∀ s : OrchState, s.processing = false →
      (orchStep s .submit).started = s.started ++ [s.nextId]) := by
  have h := orchInv_run es
  refine ⟨?_, current_none_of_idle _ h, ?_, ?_⟩
  · have hlen := congrArg List.length h.split
    rw [List.length_append] at hlen
    have hcur : (orchRun es).current.toList.length =
        (if (orchRun es).processing then 1 else 0) := by
      rw [h.flag]
      cases (orchRun es).current <;> simp
    rw [hcur] at hlen
    omega
  · intro s hp
    simp [orchStep, hp]
  · intro s hp
    simp [orchStep, hp]

theorem at_most_one_running_command_witness :
    (orchRun [OrchEvent.submit, OrchEvent.submit]).started.length =
      (orchRun [OrchEvent.submit, OrchEvent.submit]).completed.length +
        (if (orchRun [OrchEvent.submit, OrchEvent.submit]).processing then 1
         else 0) ∧
    (orchStep { processing := true } OrchEvent.submit).started =
      ({ processing := true } : OrchState).started := by
  have h := at_most_one_running_command [OrchEvent.submit, OrchEvent.submit]
  exact ⟨h.1, h.2.2.1 { processing := true } rfl⟩

/-- C3: whenever the cancellation signal fires during execution, the
executor returns the single cancelled result shape (cancelled true, error
"Command cancelled.", response null), the tool-call records completed
before the abort are still returned (never discarded); without the signal
the loop never reports cancelled; a signal observed at the top of a pass
returns exactly cancelledResult of the records so far; and resolving the
cancelled command's confirmations leaves no pending confirmation of that
command, each one being delivered the denied (false) outcome. -/
theorem cancellation_single_shape_denies_confirmations
    (resp : Nat → ModelResp) (run : Nat → String → String → ToolResult)
    (auto : Nat → List ToolCallRecord) (fuel iter cid : Nat)
    (acc : List ToolCallRecord) :
    (∀ T : Option Nat,
      (execLoop resp run auto T fuel iter cid acc).cancelled = true →
      (execLoop resp run auto T fuel iter cid acc).response = none ∧
      (execLoop resp run auto T fuel iter cid acc).error =
        some ("Command cancelled.") ∧
      acc <+: (execLoop resp run auto T fuel iter cid acc).toolCalls) ∧
    (execLoop resp run auto none fuel iter cid acc).cancelled = false ∧
    (∀ tau : Nat, tau ≤ 3 * iter → 0 < fuel →
      execLoop resp run auto (some tau) fuel iter cid acc =
        cancelledResult acc) ∧
    (∀ (sys : ConfirmSys) (commandId : Nat),
      (∀ p ∈ (resolveConfirmationsForCommand sys commandId false).pending,
        (p.commandId == commandId) = false) ∧
      (resolveConfirmationsForCommand sys commandId false).delivered =
        sys.delivered ++
          (sys.pending.filter (fun p => p.commandId == commandId)).map
            (fun p => (p.confirmId, false))) := by
  refine ⟨?_, execLoop_no_signal_not_cancelled resp run auto fuel iter cid acc,
    ?_, ?_⟩
  · intro T hcan
    exact execLoop_cancelled_shape resp run auto T fuel iter cid acc hcan
  · intro tau htau hfuel
    exact execLoop_fired_at_top resp run auto tau fuel iter cid acc hfuel htau
  · intro sys commandId
    constructor
    · intro p hp
      have := List.of_mem_filter hp
      simpa using this
    · rfl

theorem cancellation_single_shape_witness :
    execLoop (fun _ => ModelResp.text (some ("done")))
        (fun _ _ _ => ({} : ToolResult)) (fun _ => []) (some 0)
        MAX_ITERATIONS 0 0 [] = cancelledResult [] ∧
    (∀ p ∈ (resolveConfirmationsForCommand
        { pending := [⟨0, 7⟩, ⟨1, 8⟩], nextConfirmId := 2, delivered := [] }
        7 false).pending, (p.commandId == 7) = false) := by
  have h := cancellation_single_shape_denies_confirmations
    (fun _ => ModelResp.text (some ("done"))) (fun _ _ _ => ({} : ToolResult))
    (fun _ => []) MAX_ITERATIONS 0 0 []
  refine ⟨h.2.2.1 0 (by decide) (by decide), ?_⟩
  exact (h.2.2.2 { pending := [⟨0, 7⟩, ⟨1, 8⟩], nextConfirmId := 2 } 7).1

/-- C4: if the model returns tool-call-only responses for all
MAX_ITERATIONS (10) passes and no cancellation occurs, the loop ends with
error "Max iterations reached", is not cancelled, returns a nonempty
toolCalls array, and never discards accumulated work: the entry
accumulator is a prefix of the returned records, and for any accumulator
the returned records are exactly it followed by the records of the run
itself. -/
theorem max_iterations_keeps_partial_work (resp : Nat → ModelResp)
    (run : Nat → String → String → ToolResult)
    (auto : Nat → List ToolCallRecord) (cid : Nat) (acc : List ToolCallRecord)
    (hall : ∀ i < MAX_ITERATIONS, (resp i).isToolPass = true) :
    (execLoop resp run auto none MAX_ITERATIONS 0 cid acc).error =
      some ("Max iterations reached") ∧
    (execLoop resp run auto none MAX_ITERATIONS 0 cid acc).cancelled = false ∧
    acc <+: (execLoop resp run auto none MAX_ITERATIONS 0 cid acc).toolCalls ∧
    (execLoop resp run auto none MAX_ITERATIONS 0 cid acc).toolCalls ≠ [] ∧
    (∀ acc' : List ToolCallRecord,
      (execLoop resp run auto none MAX_ITERATIONS 0 cid acc').toolCalls =
        acc' ++ (execLoop resp run auto none MAX_ITERATIONS 0 cid []).toolCalls) := by
  have hall' : ∀ i, 0 ≤ i → i < 0 + MAX_ITERATIONS → (resp i).isToolPass = true := by
    intro i _ hi
    exact hall i (by omega)
  obtain ⟨h₁, _h₂, h₃, h₄, h₅⟩ :=
    execLoop_maxIter resp run auto MAX_ITERATIONS 0 cid acc hall'
  refine ⟨h₁, h₃, h₄, h₅ (by rw [MAX_ITERATIONS]; omega), ?_⟩
  intro acc'
  exact execLoop_toolCalls_accum resp run auto none MAX_ITERATIONS 0 cid acc'

theorem max_iterations_witness :
    (execLoop (fun _ => ModelResp.toolCalls [("list_tabs", "")] none)
        (fun _ _ _ => ({} : ToolResult)) (fun _ => []) none
        MAX_ITERATIONS 0 0 []).error = some ("Max iterations reached") ∧
    (execLoop (fun _ => ModelResp.toolCalls [("list_tabs", "")] none)
        (fun _ _ _ => ({} : ToolResult)) (fun _ => []) none
        MAX_ITERATIONS 0 0 []).toolCalls ≠ [] := by
  have h := max_iterations_keeps_partial_work
    (fun _ => ModelResp.toolCalls [("list_tabs", "")] none)
    (fun _ _ _ => ({} : ToolResult)) (fun _ => []) 0 [] (by decide)
  exact ⟨h.1, h.2.2.2.1⟩

/-- C5: two create_tab calls in one command whose URLs normalize to the
same dedup key cause exactly one underlying tab creation.  Sequentially
(first creation already completed): the first call executes create_tab
once and returns the created tab; the second call creates nothing, returns
deduped true and references the first call's tab.  Concurrently (first
creation still in flight, its promise recorded in inFlightCreateByUrl):
the second call creates nothing, returns deduped true and references the
tab of the first call's result. -/
theorem create_tab_dedup_single_creation
    (createExec : Option String → ToolResult) (alreadyFocused : Nat → Bool)
    (st : DedupState) (u1 u2 k : String) (t1 : TabSummary)
    (hk1 : normalizeUrlForDedup u1 = some k)
    (hk2 : normalizeUrlForDedup u2 = some k)
    (hcreated : st.createdTabsByUrl.lookup k = none)
    (hinflight : st.inFlightCreateByUrl.lookup k = none)
    (hexec : createExec (some u1) = createTabSuccessResult t1)
    (hturl : t1.url = u1) :
    (execCreateTab createExec alreadyFocused st (some u1)).2.2 = ["create_tab"] ∧
    (execCreateTab createExec alreadyFocused st (some u1)).1.tab = some t1 ∧
    (execCreateTab createExec alreadyFocused
        (execCreateTab createExec alreadyFocused st (some u1)).2.1
        (some u2)).1.deduped = true ∧
    (execCreateTab createExec alreadyFocused
        (execCreateTab createExec alreadyFocused st (some u1)).2.1
        (some u2)).1.tab = some t1 ∧
    ((execCreateTab createExec alreadyFocused
        (execCreateTab createExec alreadyFocused st (some u1)).2.1
        (some u2)).2.2.contains ("create_tab")) = false ∧
    (execCreateTab createExec alreadyFocused
        (midCreateState createExec st (some u1) k) (some u2)).1.deduped = true ∧
    (execCreateTab createExec alreadyFocused
        (midCreateState createExec st (some u1) k) (some u2)).1.tab = some t1 ∧
    ((execCreateTab createExec alreadyFocused
        (midCreateState createExec st (some u1) k) (some u2)).2.2.contains
      "create_tab") = false := by
  have hempty : normalizeUrlForDedup ("") = none := by decide
  have hu1ne : ¬ t1.url = "" := by
    rw [hturl]
    intro hcontra
    rw [hcontra, hempty] at hk1
    cases hk1
  have hnorm1 : normalizeUrlOpt (some u1) = some k := by
    simp only [normalizeUrlOpt]; exact hk1
  have hnorm2 : normalizeUrlOpt (some u2) = some k := by
    simp only [normalizeUrlOpt]; exact hk2
  have hfirstCreate : execCreateTabCreate createExec st (some u1) =
      (createTabSuccessResult t1,
       { st with createdTabsByUrl := mapSet st.createdTabsByUrl k t1 },
       ["create_tab"]) := by
    unfold execCreateTabCreate
    rw [hexec]
    simp only [createTabSuccessResult]
    rw [if_neg hu1ne]
    simp only [normalizeUrlOpt]
    rw [hturl, hk1]
    simp
  have hfirst : execCreateTab createExec alreadyFocused st (some u1) =
      (createTabSuccessResult t1,
       { st with createdTabsByUrl := mapSet st.createdTabsByUrl k t1 },
       ["create_tab"]) := by
    unfold execCreateTab
    rw [hnorm1]
    dsimp only
    rw [hcreated]
    dsimp only
    rw [hinflight]
    dsimp only
    exact hfirstCreate
  have hlookup2 : (mapSet st.createdTabsByUrl k t1).lookup k = some t1 := by
    simp [mapSet, List.lookup]
  have hsecond : execCreateTab createExec alreadyFocused
      { st with createdTabsByUrl := mapSet st.createdTabsByUrl k t1 }
      (some u2) =
      (({ success := some true, deduped := true, tab := some t1,
          message := some ("Duplicate create_tab suppressed; switched to existing tab.") } : ToolResult),
       { st with createdTabsByUrl := mapSet st.createdTabsByUrl k t1 },
       if alreadyFocused t1.id then [] else ["switch_tab"]) := by
    unfold execCreateTab
    rw [hnorm2]
    dsimp only
    rw [hlookup2]
  have hmidlook : (midCreateState createExec st (some u1) k).inFlightCreateByUrl.lookup k =
      some (createTabSuccessResult t1) := by
    simp [midCreateState, mapSet, hexec, List.lookup]
  have hthird : execCreateTab createExec alreadyFocused
      (midCreateState createExec st (some u1) k) (some u2) =
      (({ success := some true, deduped := true, tab := some t1,
          message := some ("Duplicate create_tab suppressed; reused in-flight tab.") } : ToolResult),
       midCreateState createExec st (some u1) k,
       if alreadyFocused t1.id then [] else ["switch_tab"]) := by
    unfold execCreateTab
    rw [hnorm2]
    dsimp only
    have hmc : (midCreateState createExec st (some u1) k).createdTabsByUrl.lookup k = none := by
      simp only [midCreateState]
      exact hcreated
    rw [hmc]
    dsimp only
    rw [hmidlook]
    dsimp only [createTabSuccessResult]
  have heffects : ∀ b : Bool,
      ((if b then ([] : List String) else ["switch_tab"]).contains ("create_tab")) = false := by
    intro b
    cases b <;> decide
  rw [hfirst, hsecond, hthird]
  refine ⟨rfl, rfl, rfl, rfl, heffects _, rfl, rfl, heffects _⟩

theorem create_tab_dedup_witness :
    (execCreateTab (fun _ => createTabSuccessResult
        { id := 42, url := "https://x.com" }) (fun _ => false) {}
      (some ("https://x.com"))).2.2 = ["create_tab"] ∧
    (execCreateTab (fun _ => createTabSuccessResult
        { id := 42, url := "https://x.com" }) (fun _ => false)
      (execCreateTab (fun _ => createTabSuccessResult
          { id := 42, url := "https://x.com" }) (fun _ => false) {}
        (some ("https://x.com"))).2.1
      (some ("https://www.x.com/"))).1.deduped = true := by
  have h := create_tab_dedup_single_creation
    (fun _ => createTabSuccessResult { id := 42, url := "https://x.com" })
    (fun _ => false) {} ("https://x.com") ("https://www.x.com/") ("https://x.com")
    { id := 42, url := "https://x.com" }
    (by decide) (by decide) (by decide) (by decide) rfl rfl
  exact ⟨h.1, h.2.2.1⟩

/-- C6: every pending confirmation is delivered at most one outcome (the
delivered log never contains a confirmId twice, over any event sequence);
a timeout firing on a still-pending confirmation delivers denied (false)
and removes it; a popup disconnect delivers denied to every pending
confirmation and leaves none pending; and a destructive tool call whose
confirmation was denied produces the explicit denied result, with no
capability invoked. -/
theorem confirmation_single_outcome_denied_default :
    (∀ es : List ConfirmEvent, ((confirmRun es).delivered.map Prod.fst).Nodup) ∧
    (∀ (s : ConfirmSys) (confirmId : Nat),
      s.pending.any (fun p => p.confirmId == confirmId) = true →
      (confirmStep s (.timeout confirmId)).delivered =
        s.delivered ++ [(confirmId, false)] ∧
      ((confirmStep s (.timeout confirmId)).pending.any
        (fun p => p.confirmId == confirmId)) = false) ∧
    (∀ s : ConfirmSys,
      (confirmStep s .disconnect).delivered =
        s.delivered ++ s.pending.map (fun p => (p.confirmId, false)) ∧
      (confirmStep s .disconnect).pending = []) ∧
    (∀ (patterns : List String) (createExec : Option String → ToolResult)
      (alreadyFocused : Nat → Bool) (genericExec : ParsedCall → ToolResult)
      (st : DedupState) (call : ParsedCall),
      call.funcName ∈ DESTRUCTIVE_TOOLS →
      dispatchParsedCall patterns (some false) createExec alreadyFocused
        genericExec st call = (deniedResult, st, [])) := by
  refine ⟨?_, ?_, fun s => ⟨rfl, rfl⟩, ?_⟩
  · intro es
    exact (confirmInv_run es).deliveredNodup
  · intro s confirmId hany
    constructor
    · simp only [confirmStep]
      rw [if_pos hany]
    · simp only [confirmStep]
      rw [if_pos hany]
      rw [Bool.eq_false_iff]
      intro hcontra
      obtain ⟨p, hp, hbeq⟩ := List.any_eq_true.mp hcontra
      have hnot := List.of_mem_filter hp
      rw [hbeq] at hnot
      simp at hnot
  · intro patterns createExec alreadyFocused genericExec st call hmem
    have hcont : DESTRUCTIVE_TOOLS.contains call.funcName = true :=
      List.elem_eq_true_of_mem hmem
    unfold dispatchParsedCall
    rw [hcont]
    simp

theorem confirmation_denied_witness :
    (confirmStep { pending := [⟨0, 7⟩], nextConfirmId := 1 }
        (ConfirmEvent.timeout 0)).delivered = [(0, false)] ∧
    dispatchParsedCall [] (some false) (fun _ => ({} : ToolResult))
        (fun _ => false) (fun _ => ({} : ToolResult)) {}
        { funcName := "close_tabs" } = (deniedResult, {}, []) := by
  have h := confirmation_single_outcome_denied_default
  refine ⟨?_, h.2.2.2 [] _ _ _ {} { funcName := "close_tabs" } (by decide)⟩
  have h2 := (h.2.1 { pending := [⟨0, 7⟩], nextConfirmId := 1 } 0 (by decide)).1
  simpa using h2

/-- C7: for every request the client reserves the highest-priority model
with budget: a successful scan returns the first ring model with fewer
than RPM_LIMIT calls in the trailing window and records now at selection
time; when every model is saturated the flag is set and the chosen model's
oldest recorded call expires soonest; and from an idle client, any
sequence of at most RPM_LIMIT * |MODEL_RING| = 27 requests within one
60-second window is served entirely by the budget branch. -/
theorem model_rotation_reservation_capacity :
    (∀ (now : Nat) (log : RateLog) (m : String) (log' : RateLog),
      findAvail now MODEL_RING log = (some m, log') →
      ∃ pre post, MODEL_RING = pre ++ m :: post ∧
        (∀ x ∈ pre, RPM_LIMIT ≤ (cleanLog now (log x)).length) ∧
        (cleanLog now (log m)).length < RPM_LIMIT ∧
        log' m = cleanLog now (log m) ++ [now]) ∧
    (∀ (now : Nat) (log : RateLog),
      (findAvail now MODEL_RING log).1 = none →
      (nextModel now log).2.1 = true ∧
      (∀ x ∈ MODEL_RING,
        waitOf now ((findAvail now MODEL_RING log).2) (nextModel now log).1 ≤
          waitOf now ((findAvail now MODEL_RING log).2) x)) ∧
    (∀ (times : List Nat) (lo : Nat),
      (∀ t ∈ times, lo ≤ t ∧ t < lo + RPM_WINDOW_MS) →
      times.length ≤ RPM_LIMIT * MODEL_RING.length →
      ((nextModelRun times (fun _ => [])).1.all (fun fb => !fb.2)) = true) ∧
    RPM_LIMIT * MODEL_RING.length = 27 := by
  refine ⟨?_, ?_, ?_, by decide⟩
  · intro now log m log' h
    exact findAvail_priority now MODEL_RING log m log' modelRing_nodup h
  · intro now log hnone
    have hpair : findAvail now MODEL_RING log =
        (none, (findAvail now MODEL_RING log).2) := by
      rw [← hnone]
    have hnext : nextModel now log =
        (pickSoonest now ((findAvail now MODEL_RING log).2), true,
         Function.update ((findAvail now MODEL_RING log).2)
           (pickSoonest now ((findAvail now MODEL_RING log).2))
           (((findAvail now MODEL_RING log).2)
             (pickSoonest now ((findAvail now MODEL_RING log).2)) ++ [now])) := by
      unfold nextModel
      rw [hpair]
    rw [hnext]
    exact ⟨rfl, fun x hx => pickSoonest_min now _ x hx⟩
  · intro times lo hb hlen
    rw [List.all_eq_true]
    intro fb hfb
    have hsum : (MODEL_RING.map
        (fun m => ((fun _ => ([] : List Nat)) m).length)).sum = 0 := by
      simp
    have hns := nextModelRun_not_saturated lo times (fun _ => []) hb
      (fun m _ ts hts => absurd hts (List.not_mem_nil ts))
      (by rw [hsum]; simpa using hlen) fb hfb
    rw [hns]
    rfl

theorem model_rotation_witness :
    ((nextModelRun (List.replicate 27 5) (fun _ => [])).1.all
      (fun fb => !fb.2)) = true := by
  have h := model_rotation_reservation_capacity
  exact h.2.2.1 (List.replicate 27 5) 0 (by decide) (by decide)

/-- C8 (amended): a create_tab call whose URL the code's matcher blocks —
exact domain or dot-subdomain match for domain patterns, otherwise an
anchored case-insensitive glob match against the full URL or
hostname+path+query — returns the distinct blocked result, leaves the
dedup state untouched and invokes no capability function at all. -/
theorem blocked_create_tab_refused_no_side_effect
    (patterns : List String) (approval : Option Bool)
    (createExec : Option String → ToolResult) (alreadyFocused : Nat → Bool)
    (genericExec : ParsedCall → ToolResult) (st : DedupState) (u : String)
    (hne : u ≠ "") (hblocked : isBlockedUrl u patterns = true) :
    dispatchParsedCall patterns approval createExec alreadyFocused genericExec
      st { funcName := "create_tab", url := some u } =
      ({ error := some BLOCKED_SITE_ERROR, blocked := true, url := some u },
       st, []) := by
  have hbequ : (u == "") = false := beq_eq_false_iff_ne.mpr hne
  unfold dispatchParsedCall
  simp [hbequ, hblocked, blockedResult]
  intro hmem
  exact absurd hmem (by decide)

theorem blocked_create_tab_witness :
    dispatchParsedCall ["x.com"] none (fun _ => ({} : ToolResult))
        (fun _ => false) (fun _ => ({} : ToolResult)) {}
        { funcName := "create_tab", url := some ("https://www.x.com/feed") } =
      ({ error := some BLOCKED_SITE_ERROR, blocked := true,
         url := some ("https://www.x.com/feed") }, {}, []) := by
  exact blocked_create_tab_refused_no_side_effect ["x.com"] none _ _ _ {}
    ("https://www.x.com/feed") (by decide) (by decide)

/-- The blocked-pattern predicate as claim C8 words one of its matching
modes: a literal substring match of the pattern against path plus query.
Stated from the claim text, to be compared with the code's matcher. -/
def specSubstringBlocked (url pattern : String) : Bool :=
  match parseAsUrl url with
  | some p => containsSub (strLower (p.pathname ++ p.search)) (strLower pattern)
  | none => false

/-- C8 counterexample: a pattern occurring as a proper substring of
path+query (the claim's "literal substring match against path+query"
mode) does not block the URL: the call is not refused and the create_tab
capability is invoked. -/
theorem substring_matching_url_not_refused :
    specSubstringBlocked ("https://site.com/ads/track") ("/ads") = true ∧
    isBlockedUrl ("https://site.com/ads/track") ["/ads"] = false ∧
    (dispatchParsedCall ["/ads"] none (fun _ => ({} : ToolResult))
        (fun _ => false) (fun _ => ({} : ToolResult)) {}
        { funcName := "create_tab",
          url := some ("https://site.com/ads/track") }).1.blocked = false ∧
    (dispatchParsedCall ["/ads"] none (fun _ => ({} : ToolResult))
        (fun _ => false) (fun _ => ({} : ToolResult)) {}
        { funcName := "create_tab",
          url := some ("https://site.com/ads/track") }).2.2 = ["create_tab"] := by
  refine ⟨by decide, by decide, by decide, by decide⟩

/-- C9: close_duplicate_tabs on a window whose tabs carry one URL three
times and another URL once (in any order) closes the two later duplicates
and keeps the first occurrence of each URL: the result reports
closedCount = 2, exactly two tabs remain, and for every URL the first
matching tab of the window is exactly the remaining matching tab. -/
theorem close_duplicate_tabs_two_remain (tabs : List DupTab) (u v : String)
    (hnd : (tabs.map DupTab.id).Nodup)
    (hperm : (tabs.map DupTab.url).Perm [u, u, u, v])
    (hne : u ≠ v) :
    (closeDuplicateTabs tabs).1.closedCount = some 2 ∧
    (closeDuplicateTabs tabs).2.length = 2 ∧
    (∀ w : String, (closeDuplicateTabs tabs).2.find? (fun t => t.url == w) =
      tabs.find? (fun t => t.url == w)) := by
  have hlen4 : tabs.length = 4 := by
    have := hperm.length_eq
    simpa using this
  have htf : (tabs.map DupTab.url).toFinset = [u, u, u, v].toFinset := by
    ext x
    simp only [List.mem_toFinset]
    exact hperm.mem_iff
  have hcard : (tabs.map DupTab.url).toFinset.card = 2 := by
    rw [htf]
    have hins : ([u, u, u, v] : List String).toFinset = insert u {v} := by
      simp
    rw [hins, Finset.card_insert_of_not_mem (by simp [hne]),
      Finset.card_singleton]
  have hkf : (keepFirsts (tabs.map DupTab.url) []).length = 2 := by
    rw [keepFirsts_length_toFinset]
    simpa using hcard
  have hdlen : (dupeIds tabs []).length = 2 := by
    have := dupeIds_keepFirsts_length tabs []
    omega
  have hdne : (dupeIds tabs []).isEmpty = false := by
    cases hd : dupeIds tabs []
    · rw [hd] at hdlen; simp at hdlen
    · rfl
  have hremlen : (tabs.filter
      (fun t => !((dupeIds tabs []).contains t.id))).length = 2 := by
    have hmap := remaining_map_url tabs hnd []
    have := congrArg List.length hmap
    rw [List.length_map] at this
    omega
  have hclose : closeDuplicateTabs tabs =
      ({ success := some true, closedCount := some (dupeIds tabs []).length },
       tabs.filter (fun t => !((dupeIds tabs []).contains t.id))) := by
    unfold closeDuplicateTabs
    dsimp only
    rw [hdne]
    simp
  refine ⟨?_, ?_, ?_⟩
  · rw [hclose, hdlen]
  · rw [hclose]
    exact hremlen
  · intro w
    rw [hclose]
    exact remaining_find_first tabs hnd [] w (by simp)

theorem close_duplicate_tabs_witness :
    (closeDuplicateTabs [⟨1, "a"⟩, ⟨2, "b"⟩, ⟨3, "a"⟩, ⟨4, "a"⟩]).1.closedCount =
      some 2 ∧
    (closeDuplicateTabs [⟨1, "a"⟩, ⟨2, "b"⟩, ⟨3, "a"⟩, ⟨4, "a"⟩]).2.length = 2 := by
  have h := close_duplicate_tabs_two_remain
    [⟨1, "a"⟩, ⟨2, "b"⟩, ⟨3, "a"⟩, ⟨4, "a"⟩] ("a") ("b")
    (by decide) (by decide) (by decide)
  exact ⟨h.1, h.2.1⟩

/-- C10: a close_tabs call whose tabIds cover every tab of some nonempty
window is refused: the result carries success false and an error message,
and the window list — including every other window — is returned
completely unchanged, so no tab is removed at all. -/
theorem close_tabs_refusal_removes_nothing (windows : List BrowserWindow)
    (tabIds : List Nat) (w : BrowserWindow)
    (hw : w ∈ windows) (hne : w.tabIds ≠ [])
    (hcover : ∀ id ∈ w.tabIds, id ∈ tabIds) :
    (closeTabs windows tabIds).1.success = some false ∧
    (closeTabs windows tabIds).1.error ≠ none ∧
    (closeTabs windows tabIds).2 = windows := by
  have hp : (w.tabIds.all (fun id => tabIds.contains id) && !w.tabIds.isEmpty) =
      true := by
    rw [Bool.and_eq_true]
    constructor
    · rw [List.all_eq_true]
      intro id hid
      exact List.elem_eq_true_of_mem (hcover id hid)
    · simpa using hne
  have hsome : (windows.find? (fun x =>
      x.tabIds.all (fun id => tabIds.contains id) && !x.tabIds.isEmpty)).isSome := by
    rw [List.find?_isSome]
    exact ⟨w, hw, hp⟩
  cases hfind : windows.find? (fun x =>
      x.tabIds.all (fun id => tabIds.contains id) && !x.tabIds.isEmpty) with
  | none => rw [hfind] at hsome; simp at hsome
  | some w' =>
    unfold closeTabs
    rw [hfind]
    exact ⟨rfl, by simp, rfl⟩

theorem close_tabs_refusal_witness :
    (closeTabs [⟨1, [10, 11]⟩, ⟨2, [20]⟩] [10, 11]).1.success = some false ∧
    (closeTabs [⟨1, [10, 11]⟩, ⟨2, [20]⟩] [10, 11]).2 =
      [⟨1, [10, 11]⟩, ⟨2, [20]⟩] := by
  have h := close_tabs_refusal_removes_nothing [⟨1, [10, 11]⟩, ⟨2, [20]⟩]
    [10, 11] ⟨1, [10, 11]⟩ (by decide) (by decide) (by decide)
  exact ⟨h.1, h.2.2⟩

end Fox
